import Mathlib

/-!
# A shallow embedding of compdb-vs (src/compdb-vs.cpp)

This file models the core of compdb-vs, a tool that generates a
`compile_commands.json` compilation database from MSBuild tlog files, and
proves properties of that model.

Modelling conventions:

* `std::string` / `std::string_view` are modelled as `List Char` (`Str`).
* `fs::path` is modelled as a list of components (`Path`), each component a
  `List Char`.  Parsing a string into a path splits on `/` and `\` and drops
  empty components; the root-directory marker of `C:\` is not represented
  separately, so the drive root `C:\` is the singleton path `[C:]`.
  Drive-relative paths such as `C:foo` are out of scope of the model.
* The filesystem is a finite value: a list of existing paths (with their
  exact on-disk casing), the sub-list of those that are directories, and the
  byte contents of regular files.  Name lookup (`fs::exists`,
  `fs::is_directory`, opening a file, `directory_iterator` matching) is
  case-insensitive in ASCII, which models NTFS as used on Windows.
* Machine integers (`std::size_t`) are `Nat`; the one place the C++ code
  relies on wraparound (`npos + 1 == 0` in `findIncludePaths`) is modelled
  explicitly.
* `Result<T, E>` is `Except Err T`.  Loops whose termination is not
  structural are given a fuel parameter; `none` means the fuel ran out.
-/

deriving instance DecidableEq for Except

namespace CompdbVS

/-- One path component (`std::string` content), e.g. `C:` or `src`. -/
abbrev Comp := List Char

/-- A `std::string` is modelled as a list of characters. -/
abbrev Str := List Char

/-- An `fs::path` is modelled as its list of components. -/
abbrev Path := List Comp

/-- Single-byte ASCII `std::tolower`, as used by the `toLower` lambda in
`getCorrectCasingForPath`. -/
def asciiLower (c : Char) : Char :=
  if 65 ≤ c.toNat ∧ c.toNat ≤ 90 then Char.ofNat (c.toNat + 32) else c

/-- Lowercase a component character-wise (the `toLower` lambda). -/
def lowerComp (c : Comp) : Comp := c.map asciiLower

/-- Lowercase every component of a path. -/
def lowerPath (p : Path) : Path := p.map lowerComp

/-- `std::isalpha` restricted to ASCII (`"C"` locale). -/
def isAlphaChar (c : Char) : Bool :=
  (65 ≤ c.toNat ∧ c.toNat ≤ 90) ∨ (97 ≤ c.toNat ∧ c.toNat ≤ 122)

/-- `std::isspace` in the `"C"` locale: space, `\t`, `\n`, `\v`, `\f`, `\r`. -/
def isSpaceChar (c : Char) : Bool :=
  c = ' ' ∨ c = '\t' ∨ c = '\n' ∨ c = Char.ofNat 11 ∨ c = Char.ofNat 12 ∨ c = '\r'

/-- Split a string on `/` and `\` separators (model of `fs::path`
decomposition into components; empty pieces are dropped by `parsePath`). -/
def splitSlashes : Str → List Comp
  | [] => [[]]
  | c :: rest =>
    match splitSlashes rest with
    | [] => [[]]
    | h :: t =>
      if c = '/' ∨ c = '\\' then [] :: h :: t else (c :: h) :: t

/-- Model of constructing an `fs::path` from a string: the list of its
nonempty components. -/
def parsePath (s : Str) : Path := (splitSlashes s).filter (fun c => c ≠ [])

/-- Model of `fs::path::string()` for paths built by the program on Windows:
components joined with the preferred separator `\`. -/
def pathToString (p : Path) : Str := List.intercalate ['\\'] p

/-- Model of `fs::path::lexically_normal()`: drop `.` components and let a
`..` component cancel a preceding non-`..` component. -/
def lexNormAux (acc : Path) : Path → Path
  | [] => acc
  | c :: rest =>
    if c = ['.'] then lexNormAux acc rest
    else if c = ['.', '.'] then
      match acc.getLast? with
      | some l => if l = ['.', '.'] then lexNormAux (acc ++ [c]) rest
                  else lexNormAux acc.dropLast rest
      | none => lexNormAux (acc ++ [c]) rest
    else lexNormAux (acc ++ [c]) rest

/-- `fs::path::lexically_normal()` on a component list. -/
def lexicallyNormal (p : Path) : Path := lexNormAux [] p

/-- The finite filesystem a run observes.  `files` lists every existing path
(files and directories) in exact on-disk casing; `dirs` lists those that are
directories; `contents` gives the bytes of regular files. -/
structure FileSystem where
  files : List Path
  dirs : List Path
  contents : List (Path × List Nat)
deriving Repr

/-- `fs::exists`, case-insensitive in ASCII (Windows semantics). -/
def fsExists (fs : FileSystem) (p : Path) : Bool :=
  fs.files.any (fun q => lowerPath q == lowerPath p)

/-- `fs::is_directory`, case-insensitive in ASCII. -/
def fsIsDir (fs : FileSystem) (p : Path) : Bool :=
  fs.dirs.any (fun q => lowerPath q == lowerPath p)

/-- Opening a regular file for reading: its bytes, found case-insensitively;
`none` models an `ifstream` that failed to open. -/
def fsContents (fs : FileSystem) (p : Path) : Option (List Nat) :=
  (fs.contents.find? (fun e => lowerPath e.1 == lowerPath p)).map (fun e => e.2)

/-- The filenames produced by `fs::directory_iterator` over `parent`: the
last component of every existing path whose parent matches `parent`
(case-insensitively), in filesystem (= list) order. -/
def childNames (fs : FileSystem) (parent : Path) : List Comp :=
  fs.files.filterMap (fun q =>
    if q = [] then none
    else if lowerPath q.dropLast == lowerPath parent then some (q.getLastD [])
    else none)

/-- The error kinds surfaced by the program (`std::runtime_error` messages,
by kind).  `replaceOutOfRange` models the `std::out_of_range` that
`std::string::replace` throws when given `npos`. -/
inductive Err where
  | buildDirMissing
  | streamUnreadable
  | notASourceCommand
  | pathNotFound
  | parentMissing
  | noCaseMatch
  | malformedInclude
  | replaceOutOfRange
deriving Repr, DecidableEq

/-- `struct CompileCommand`. -/
structure CompileCommand where
  directory : Str
  command : Str
  file : Str
deriving Repr, DecidableEq

/-- The `isDriveRoot` lambda in `getCorrectCasingForPath`: the path has a
root name and nothing after the drive letter (and optional root directory).
In the component model this is a singleton component ending in `:`. -/
def isDriveRoot : Path → Bool
  | [c] => c.getLastD ' ' = ':'
  | _ => false

/-- The recursion of `detail::getCorrectCasingForPath`, structured over the
REVERSED component list so that recursing on the parent
(`path.parent_path()`, i.e. the reversed tail) is structural.  For a path of
at most one component, or a drive root, the path is returned as given; for a
longer path the parent's directory listing is searched for the first entry
matching the final component case-insensitively, the parent is corrected
recursively, and the entry's on-disk casing is appended. -/
def gccRev (fs : FileSystem) : Path → Except Err Path
  | [] =>
    if ¬ fsExists fs [] then .error .pathNotFound
    else .ok []
  | [c] =>
    if ¬ fsExists fs [c] then .error .pathNotFound
    else .ok [c]
  | last :: next :: rest =>
    let p := (last :: next :: rest).reverse
    if ¬ fsExists fs p then .error .pathNotFound
    else
      if ¬ fsIsDir fs (next :: rest).reverse then .error .parentMissing
      else
        match (childNames fs (next :: rest).reverse).find?
            (fun e => lowerComp e == lowerComp last) with
        | none => .error .noCaseMatch
        | some e =>
          match gccRev fs (next :: rest) with
          | .ok q => .ok (q ++ [e])
          | .error err => .error err

/-- `detail::getCorrectCasingForPath`.  A path of at most one component is
`!path.has_parent_path()` or the `isDriveRoot` case (both return the path
as given after the existence check), which in the component model is exactly
the one-component case, so `gccRev` needs no separate drive-root test. -/
def getCorrectCasingForPath (fs : FileSystem) (p : Path) : Except Err Path :=
  gccRev fs p.reverse

/-- `enum class FileEncoding`. -/
inductive FileEncoding where
  | Utf8
  | Utf16BigEndian
  | Utf16LittleEndian
deriving Repr, DecidableEq

/-- An `std::istream` over bytes: contents plus read position. -/
structure ByteStream where
  bytes : List Nat
  pos : Nat
deriving Repr, DecidableEq

/-- `stream.get()` followed by `static_cast<unsigned char>`: yields the next
byte, or 255 at end of stream (EOF is `-1`, and `(unsigned char)(-1)` is
`0xFF`); the position does not advance at EOF. -/
def bsGet (s : ByteStream) : Nat × ByteStream :=
  match s.bytes.get? s.pos with
  | some b => (b % 256, { s with pos := s.pos + 1 })
  | none => (255, s)

/-- `detail::getFileEncoding`: read two bytes; `FF FE` is UTF-16 LE, `FE FF`
is UTF-16 BE, anything else is UTF-8 and the stream is rewound to offset 0. -/
def getFileEncoding (s : ByteStream) : FileEncoding × ByteStream :=
  let r1 := bsGet s
  let r2 := bsGet r1.2
  if r1.1 = 0xFF ∧ r2.1 = 0xFE then (.Utf16LittleEndian, r2.2)
  else if r1.1 = 0xFE ∧ r2.1 = 0xFF then (.Utf16BigEndian, r2.2)
  else (.Utf8, { r2.2 with pos := 0 })

/-- A raw byte stored into a `std::string` as a `char`. -/
def byteToChar (b : Nat) : Char := Char.ofNat (b % 256)

/-- The elements at even indices (0, 2, 4, …). -/
def evenIdx : List α → List α
  | [] => []
  | [a] => [a]
  | a :: _ :: rest => a :: evenIdx rest

/-- The `getLines` lambda in `readFileLines`: split on `\n` and strip one
trailing `\r` from each line. -/
def getLines (s : Str) : List Str :=
  (s.splitOn '\n').map (fun l => if l.getLast? = some '\r' then l.dropLast else l)

/-- `detail::readFileLines` on an open stream: detect the encoding, slurp
the rest, narrow UTF-16 content to single bytes by index-picking, and split
into lines. -/
def readFileLines (bytes : List Nat) : List Str :=
  let r := getFileEncoding { bytes := bytes, pos := 0 }
  let contents := r.2.bytes.drop r.2.pos
  match r.1 with
  | .Utf8 => getLines (contents.map byteToChar)
  | .Utf16LittleEndian => getLines ((evenIdx contents).map byteToChar)
  | .Utf16BigEndian => getLines ((evenIdx (contents.drop 1)).map byteToChar)

/-- Opening a file by path and reading its lines; a file that cannot be
opened gives the `Invalid file stream` error. -/
def readFileLinesOf (fs : FileSystem) (p : Path) : Except Err (List Str) :=
  match fsContents fs p with
  | none => .error .streamUnreadable
  | some bytes => .ok (readFileLines bytes)

/-- The longest path (in components) the filesystem knows about; bounds the
depth of any directory walk. -/
def maxPathLen (fs : FileSystem) : Nat :=
  ((fs.files ++ fs.dirs).map List.length).foldr max 0

theorem le_foldr_max (n : Nat) (l : List Nat) (h : n ∈ l) : n ≤ l.foldr max 0 := by
  induction l with
  | nil => cases h
  | cons a t ih =>
    rcases List.mem_cons.mp h with h | h
    · subst h; exact Nat.le_max_left _ _
    · exact Nat.le_trans (ih h) (Nat.le_max_right _ _)

theorem fsIsDir_length_le (fs : FileSystem) (p : Path) (h : fsIsDir fs p = true) :
    p.length ≤ maxPathLen fs := by
  rcases List.any_eq_true.mp h with ⟨q, hq, hlow⟩
  have hlp : lowerPath q = lowerPath p := by simpa using hlow
  have hlen : q.length = p.length := by
    have := congrArg List.length hlp
    simpa [lowerPath] using this
  have : q.length ≤ maxPathLen fs :=
    le_foldr_max _ _ (List.mem_map_of_mem List.length (List.mem_append_right _ hq))
  omega

/-- The filename of `CL.command.1.tlog`. -/
def tlogName : Comp := "CL.command.1.tlog".toList

/-- The body of the recursive walk in `findTlogFiles`: process the pending
entries of directory `d`.  A directory entry is recursed into (the recursive
`findTlogFiles` call re-checks `is_directory`, which succeeds); any other
entry is kept iff its filename is `CL.command.1.tlog` and the filename of
its grandparent directory is `config`.  The model's directory iteration
cannot fail, so the `WalkFailed` branch of the source does not arise. -/
def walkEntries (fs : FileSystem) (config : Comp) :
    (d : Path) → (pending : List Comp) → List Path
  | _, [] => []
  | d, name :: rest =>
    if h : fsIsDir fs (d ++ [name]) then
      walkEntries fs config (d ++ [name]) (childNames fs (d ++ [name])) ++
        walkEntries fs config d rest
    else
      if (d.dropLast.getLastD [] = config ∧ name = tlogName) then
        (d ++ [name]) :: walkEntries fs config d rest
      else
        walkEntries fs config d rest
termination_by d pending => (maxPathLen fs + 1 - d.length, pending.length)
decreasing_by
  · apply Prod.Lex.left
    have hle := fsIsDir_length_le fs (d ++ [name]) h
    simp only [List.length_append, List.length_singleton] at hle ⊢
    omega
  · apply Prod.Lex.right
    simp
  · apply Prod.Lex.right
    simp
  · apply Prod.Lex.right
    simp

/-- `findTlogFiles`: fail if `buildDir` is not a directory, otherwise walk
it recursively. -/
def findTlogFiles (fs : FileSystem) (buildDir : Path) (config : Comp) :
    Except Err (List Path) :=
  if fsIsDir fs buildDir then
    .ok (walkEntries fs config buildDir (childNames fs buildDir))
  else .error .buildDirMissing

/-- The loop of `skipWhileIdx`, driven by the remaining-length counter so
the recursion is structural. -/
def skipWhileGo (p : Char → Bool) (s : Str) : Nat → Nat → Nat
  | 0, pos => pos
  | n + 1, pos =>
    if pos < s.length then
      if p (s.getD pos ' ') then skipWhileGo p s n (pos + 1) else pos
    else pos

/-- Skip characters satisfying `p` starting at `pos` (a
`while (pos < s.size() && p(s[pos])) pos++` loop). -/
def skipWhileIdx (p : Char → Bool) (s : Str) (pos : Nat) : Nat :=
  skipWhileGo p s (s.length - pos) pos

/-- The scan of `strFind`, driven by the count of remaining candidate
positions so the recursion is structural. -/
def strFindGo (hay needle : Str) : Nat → Nat → Option Nat
  | 0, _ => none
  | n + 1, pos =>
    if needle.isPrefixOf (hay.drop pos) then some pos
    else strFindGo hay needle n (pos + 1)

/-- `std::string_view::find(needle, start)`: the smallest position at or
after `start` where `needle` occurs, if any (`none` is `npos`). -/
def strFind (hay needle : Str) (start : Nat) : Option Nat :=
  strFindGo hay needle (hay.length + 1 - start) start

/-- One iteration of the scanning loop in `findIncludePaths`. -/
inductive IncStep where
  | done (acc : List Str)
  | fail (e : Err)
  | next (pos : Nat) (acc : List Str)
deriving Repr, DecidableEq

/-- The body of the `while` loop of `detail::findIncludePaths`: find the
next `/I`, skip whitespace, then take a quoted or bare include path.  When a
bare path runs to the end of the string, `end` is `npos` and the update
`pos = end + 1` wraps to `0` on `std::size_t`; the model reproduces that
wraparound. -/
def incStep (command : Str) (pos : Nat) (acc : List Str) : IncStep :=
  match strFind command ['/', 'I'] pos with
  | none => .done acc
  | some p0 =>
    let pos1 := skipWhileIdx isSpaceChar command (p0 + 2)
    if pos1 = command.length then .fail .malformedInclude
    else
      let usesQuotes := command.getD pos1 ' ' = '"'
      let start := if usesQuotes then pos1 + 1 else pos1
      match strFind command (if usesQuotes then ['"'] else [' ']) start with
      | none =>
        if usesQuotes then .fail .malformedInclude
        else
          -- substr(start, command.size()) clamps to the end of the string;
          -- the next position is npos + 1 == 0
          .next 0 (acc ++ [(command.drop start).take command.length])
      | some e => .next (e + 1) (acc ++ [(command.drop start).take (e - start)])

/-- Run the `findIncludePaths` loop for at most `fuel` iterations; `none`
means the loop was still running when the fuel ran out. -/
def incRun (command : Str) : Nat → Nat → List Str → Option (Except Err (List Str))
  | 0, _, _ => none
  | fuel + 1, pos, acc =>
    match incStep command pos acc with
    | .done r => some (.ok r)
    | .fail e => some (.error e)
    | .next p a => incRun command fuel p a

/-- `detail::findIncludePaths`, fuel-indexed. -/
def findIncludePaths (command : Str) (fuel : Nat) : Option (Except Err (List Str)) :=
  incRun command fuel 0 []

/-- `' '` or `'\t'`, the characters trimmed by the include scanner. -/
def isBlankChar (c : Char) : Bool := c = ' ' ∨ c = '\t'

/-- The left-trim at the top of the include-scanning loop: drop leading
spaces and tabs; a line of only blanks is left unchanged. -/
def leftTrim (line : Str) : Str :=
  match line.findIdx? (fun c => ¬ isBlankChar c) with
  | some i => line.drop i
  | none => line

def hashInclude : Str := "#include".toList

def hashImport : Str := "#import".toList

/-- The directive scan applied to one source line (the body of the
`for (const auto& line : *lines)` loop in `createCompileCommandsForHeaders`):
left-trim, apply the guard
`l.empty() || !l.starts_with("#include") || (isObjC && !l.starts_with("#import"))`,
and extract the quoted or angle-bracketed filename.  Reading `l[start]` at
`start == l.size()` touches the NUL terminator of the underlying buffer and
is modelled as the NUL character. -/
def parseIncludeLine (isObjC : Bool) (line : Str) : Option (Str × Bool) :=
  let l := leftTrim line
  if l = [] ∨ ¬ (hashInclude.isPrefixOf l) ∨ (isObjC ∧ ¬ (hashImport.isPrefixOf l)) then
    none
  else
    let start0 : Nat := if hashInclude.isPrefixOf l then 8 else 7
    let start := skipWhileIdx isBlankChar l start0
    if l.getD start (Char.ofNat 0) = '"' then
      match strFind l ['"'] (start + 1) with
      | some e => some ((l.drop (start + 1)).take (e - (start + 1)), true)
      | none => none
    else if l.getD start (Char.ofNat 0) = '<' then
      match strFind l ['>'] (start + 1) with
      | some e => some ((l.drop (start + 1)).take (e - (start + 1)), false)
      | none => none
    else none

/-- The `createCompileCommand` lambda in `createCompileCommandsForHeaders`:
join the include path with the included filename, normalise, skip silently
when the candidate does not exist, case-correct (propagating failure),
de-duplicate against the global and the local list, and otherwise synthesise
a command by replacing the first occurrence of the source path in the
parent's command with the header path.  When `find` returns `npos` the
subsequent `replace` throws `std::out_of_range`, modelled as
`Err.replaceOutOfRange`. -/
def tryCandidate (fs : FileSystem) (bd : Path) (allCmds acc : List CompileCommand)
    (includePath : Path) (includedFile sourceFile command : Str) :
    Except Err (List CompileCommand) :=
  let filePath := lexicallyNormal (includePath ++ parsePath includedFile)
  if ¬ fsExists fs filePath then .ok acc
  else
    match getCorrectCasingForPath fs filePath with
    | .error e => .error e
    | .ok cc =>
      let headerPath := pathToString cc
      if allCmds.any (fun c => c.file == headerPath) ∨
          acc.any (fun c => c.file == headerPath) then .ok acc
      else
        match strFind command sourceFile 0 with
        | none => .error .replaceOutOfRange
        | some p =>
          let headerCommand := command.take p ++ headerPath ++ command.drop (p + sourceFile.length)
          .ok (acc ++ [{ directory := pathToString bd, command := headerCommand,
                         file := headerPath }])

/-- Try one included file against every include path, in order. -/
def tryIncludePaths (fs : FileSystem) (bd : Path) (allCmds : List CompileCommand)
    (includedFile sourceFile command : Str) (acc : List CompileCommand) :
    List Str → Except Err (List CompileCommand)
  | [] => .ok acc
  | ip :: rest =>
    match tryCandidate fs bd allCmds acc (parsePath ip) includedFile sourceFile command with
    | .error e => .error e
    | .ok acc2 => tryIncludePaths fs bd allCmds includedFile sourceFile command acc2 rest

/-- The per-included-file loop: for a quoted include first try the source
file's own directory, then every include path. -/
def processIncludedFiles (fs : FileSystem) (bd : Path) (allCmds : List CompileCommand)
    (sourceFile command : Str) (ips : List Str) (acc : List CompileCommand) :
    List (Str × Bool) → Except Err (List CompileCommand)
  | [] => .ok acc
  | (fileName, usesQuotes) :: rest =>
    let first : Except Err (List CompileCommand) :=
      if usesQuotes then
        tryCandidate fs bd allCmds acc ((parsePath sourceFile).dropLast) fileName
          sourceFile command
      else .ok acc
    match first with
    | .error e => .error e
    | .ok acc1 =>
      match tryIncludePaths fs bd allCmds fileName sourceFile command acc1 ips with
      | .error e => .error e
      | .ok acc2 => processIncludedFiles fs bd allCmds sourceFile command ips acc2 rest

/-- The per-command body of `createCompileCommandsForHeaders`: read the
source, collect its `#include`/`#import` directives, parse the command's
include paths, and resolve every directive. -/
def processCheckCommand (fs : FileSystem) (bd : Path) (allCmds : List CompileCommand)
    (fuel : Nat) (acc : List CompileCommand) (c : CompileCommand) :
    Option (Except Err (List CompileCommand)) :=
  match readFileLinesOf fs (parsePath c.file) with
  | .error e => some (.error e)
  | .ok lines =>
    let isObjC := ['m'].isSuffixOf c.file
    let includedFiles := lines.filterMap (parseIncludeLine isObjC)
    match incRun c.command fuel 0 [] with
    | none => none
    | some (.error e) => some (.error e)
    | some (.ok ips) =>
      some (processIncludedFiles fs bd allCmds c.file c.command ips acc includedFiles)

/-- Iterate `processCheckCommand` over the commands to check. -/
def headersGo (fs : FileSystem) (bd : Path) (allCmds : List CompileCommand) (fuel : Nat)
    (acc : List CompileCommand) : List CompileCommand →
    Option (Except Err (List CompileCommand))
  | [] => some (.ok acc)
  | c :: rest =>
    match processCheckCommand fs bd allCmds fuel acc c with
    | none => none
    | some (.error e) => some (.error e)
    | some (.ok acc2) => headersGo fs bd allCmds fuel acc2 rest

/-- `detail::createCompileCommandsForHeaders`, fuel-indexed (the fuel feeds
the `findIncludePaths` loop). -/
def createCompileCommandsForHeaders (fs : FileSystem) (bd : Path)
    (toCheck allCmds : List CompileCommand) (fuel : Nat) :
    Option (Except Err (List CompileCommand)) :=
  headersGo fs bd allCmds fuel [] toCheck

/-- The extensions accepted for a `/c` command (tlog paths are uppercase). -/
def extensions : List Str := [".C", ".CC", ".CPP", ".CXX", ".M", ".MM"].map String.toList

/-- The backwards scan for the last `letter`:`:` pair: candidate positions
run from `line.size() - 2` down to `1` (position 0 is never examined). -/
def scanDrive (line : Str) : Nat → Option Nat
  | 0 => none
  | i + 1 =>
    if isAlphaChar (line.getD (i + 1) ' ') ∧ line.getD (i + 2) ' ' = ':' then some (i + 1)
    else scanDrive line i

def clExe : Str := "cl.exe ".toList

/-- The per-line body of the source-command loop in `createCompileCommands`:
skip lines not starting with `/c`, fail if a `/c` line does not end with a
known extension, recover the source path, case-correct it (a failure is only
a warning: the line is skipped), and append a new `CompileCommand` unless
one with the same `file` already exists. -/
def processTlogLine (fs : FileSystem) (bd : Path) (acc : List CompileCommand)
    (line : Str) : Except Err (List CompileCommand) :=
  if ¬ (['/', 'c'].isPrefixOf line) then .ok acc
  else if ¬ extensions.any (fun ext => ext.isSuffixOf line) then .error .notASourceCommand
  else
    match scanDrive line (line.length - 2) with
    | none => .ok acc
    | some i =>
      let fileName := line.drop i
      match getCorrectCasingForPath fs (parsePath fileName) with
      | .error _ => .ok acc
      | .ok q =>
        let targetFile := pathToString q
        if acc.any (fun c => c.file == targetFile) then .ok acc
        else .ok (acc ++ [{ directory := pathToString bd,
                            command := clExe ++ line.take i ++ targetFile,
                            file := targetFile }])

/-- Fold `processTlogLine` over the lines of one tlog file. -/
def foldTlogLines (fs : FileSystem) (bd : Path) (acc : List CompileCommand) :
    List Str → Except Err (List CompileCommand)
  | [] => .ok acc
  | line :: rest =>
    match processTlogLine fs bd acc line with
    | .error e => .error e
    | .ok acc2 => foldTlogLines fs bd acc2 rest

/-- The source-command part of `createCompileCommands`: read every tlog file
and accumulate commands. -/
def sourcesGo (fs : FileSystem) (bd : Path) (acc : List CompileCommand) :
    List Path → Except Err (List CompileCommand)
  | [] => .ok acc
  | f :: rest =>
    match readFileLinesOf fs f with
    | .error e => .error e
    | .ok lines =>
      match foldTlogLines fs bd acc lines with
      | .error e => .error e
      | .ok acc2 => sourcesGo fs bd acc2 rest

def buildSourceCommands (fs : FileSystem) (bd : Path) (tlogFiles : List Path) :
    Except Err (List CompileCommand) :=
  sourcesGo fs bd [] tlogFiles

/-- The header fan-out `while (true)` loop of `createCompileCommands`:
compute a batch from the most recent additions, stop on an empty batch,
otherwise append and iterate.  Fuel bounds the number of iterations and
feeds the inner loops. -/
def headerLoop (fs : FileSystem) (bd : Path) (allCmds toCheck : List CompileCommand) :
    Nat → Option (Except Err (List CompileCommand))
  | 0 => none
  | fuel + 1 =>
    match createCompileCommandsForHeaders fs bd toCheck allCmds (fuel + 1) with
    | none => none
    | some (.error e) => some (.error e)
    | some (.ok batch) =>
      if batch = [] then some (.ok allCmds)
      else headerLoop fs bd (allCmds ++ batch) batch fuel

/-- `createCompileCommands`: build the source commands from the tlog files,
then (unless `skipHeaders`) run the header fan-out to a fixed point.  The
first loop iteration checks the source commands themselves. -/
def createCompileCommands (fs : FileSystem) (bd : Path) (tlogFiles : List Path)
    (skipHeaders : Bool) (fuel : Nat) : Option (Except Err (List CompileCommand)) :=
  match buildSourceCommands fs bd tlogFiles with
  | .error e => some (.error e)
  | .ok cmds =>
    if skipHeaders then some (.ok cmds)
    else headerLoop fs bd cmds cmds fuel

/-! ## Concrete example filesystems used by witnesses and counterexamples -/

/-- ASCII bytes of a string. -/
def strBytes (s : String) : List Nat := s.toList.map Char.toNat

/-- A filesystem on which a header entry's command loses its `cl.exe `
prefix: the relative header `e` (reached through the include path `.`)
occurs inside `cl.exe` itself, so the replacement that synthesises the
command for `f` rewrites the prefix. -/
def cexFS : FileSystem := {
  files := [["C:".toList], ["C:".toList, "src".toList],
            ["C:".toList, "src".toList, "a.cpp".toList],
            ["e".toList], ["f".toList]],
  dirs := [["C:".toList], ["C:".toList, "src".toList]],
  contents := [([ "t.tlog".toList ], strBytes "/c /I \".\" C:\\SRC\\A.CPP"),
               (["C:".toList, "src".toList, "a.cpp".toList], strBytes "#include \"e\""),
               (["e".toList], strBytes "#include \"f\""),
               (["f".toList], [])] }

def cexBuildDir : Path := ["build".toList]

/-- A single tlog file named `t.tlog`, used by the concrete runs. -/
def cexTlogs : List Path := [["t.tlog".toList]]

/-- The three commands `createCompileCommands` emits on `cexFS`. -/
def cexOut : List CompileCommand :=
  [{ directory := "build".toList, command := "cl.exe /c /I \".\" C:\\src\\a.cpp".toList,
     file := "C:\\src\\a.cpp".toList },
   { directory := "build".toList, command := "cl.exe /c /I \".\" e".toList,
     file := "e".toList },
   { directory := "build".toList, command := "cl.fxe /c /I \".\" e".toList,
     file := "f".toList }]

/-- A filesystem whose single tlog line `/c /IC:\SRC\A.CPP` produces a
command in which the `/I` argument is unquoted and runs to the end of the
string, so the header fan-out's include-path parse never terminates. -/
def divergeFS : FileSystem := {
  files := [["C:".toList], ["C:".toList, "src".toList],
            ["C:".toList, "src".toList, "a.cpp".toList]],
  dirs := [["C:".toList], ["C:".toList, "src".toList]],
  contents := [([ "t.tlog".toList ], strBytes "/c /IC:\\SRC\\A.CPP"),
               (["C:".toList, "src".toList, "a.cpp".toList], [])] }

/-- The single source command built from `divergeFS`. -/
def divergeCmd : CompileCommand :=
  { directory := "build".toList, command := "cl.exe /c /IC:\\src\\a.cpp".toList,
    file := "C:\\src\\a.cpp".toList }

/-! ## C9: encoding detection -/

/-- C9, counterexample: the stream consisting of the single byte `FE` is
shorter than two bytes, yet it is classified `Utf16BigEndian` (EOF reads as
`0xFF` after the `unsigned char` cast), not `Utf8` with the position reset
to 0 as the claim states. -/
theorem getFileEncoding_single_fe_not_utf8 :
    ([254] : List Nat).length < 2 ∧
    getFileEncoding { bytes := [254], pos := 0 } =
      (FileEncoding.Utf16BigEndian, { bytes := [254], pos := 1 }) ∧
    FileEncoding.Utf16BigEndian ≠ FileEncoding.Utf8 := by
  refine ⟨by decide, by decide, by decide⟩

/-- C9, amended: a stream whose first two reads give `FF FE` is classified
UTF-16 LE and `FE FF` UTF-16 BE, in both cases with the two BOM bytes
consumed; at end of stream a read yields `0xFF`, so the one-byte stream
`[FE]` is classified UTF-16 BE (with one byte consumed); every other
stream — including every other stream shorter than two bytes — is
classified UTF-8 with the read position reset to offset 0. -/
theorem getFileEncoding_classification (bytes : List Nat) (h : ∀ b ∈ bytes, b < 256) :
    ((bytes.get? 0 = some 255 ∧ bytes.get? 1 = some 254) →
      getFileEncoding { bytes := bytes, pos := 0 } =
        (FileEncoding.Utf16LittleEndian, { bytes := bytes, pos := 2 })) ∧
    ((bytes.get? 0 = some 254 ∧ bytes.get? 1 = some 255) →
      getFileEncoding { bytes := bytes, pos := 0 } =
        (FileEncoding.Utf16BigEndian, { bytes := bytes, pos := 2 })) ∧
    (bytes = [254] →
      getFileEncoding { bytes := bytes, pos := 0 } =
        (FileEncoding.Utf16BigEndian, { bytes := bytes, pos := 1 })) ∧
    (¬ (bytes.get? 0 = some 255 ∧ bytes.get? 1 = some 254) →
     ¬ (bytes.get? 0 = some 254 ∧ bytes.get? 1 = some 255) →
     bytes ≠ [254] →
      getFileEncoding { bytes := bytes, pos := 0 } =
        (FileEncoding.Utf8, { bytes := bytes, pos := 0 })) := by
  match bytes with
  | [] =>
    refine ⟨by simp, by simp, by simp, fun _ _ _ => by decide⟩
  | [b] =>
    have hb : b < 256 := h b (by simp)
    have hmod : b % 256 = b := Nat.mod_eq_of_lt hb
    refine ⟨by simp, by simp, ?_, ?_⟩
    · intro hbs
      have : b = 254 := by simpa using hbs
      subst this
      decide
    · intro _ _ hne
      have hbne : b ≠ 254 := by
        intro hcontra; exact hne (by simp [hcontra])
      simp only [getFileEncoding, bsGet, List.get?]
      simp [hmod, hbne]
  | b0 :: b1 :: rest =>
    have hb0 : b0 < 256 := h b0 (by simp)
    have hb1 : b1 < 256 := h b1 (by simp)
    have hmod0 : b0 % 256 = b0 := Nat.mod_eq_of_lt hb0
    have hmod1 : b1 % 256 = b1 := Nat.mod_eq_of_lt hb1
    refine ⟨?_, ?_, by simp, ?_⟩
    · intro hc
      obtain ⟨h0, h1⟩ := hc
      simp only [List.get?] at h0 h1
      have e0 : b0 = 255 := by simpa using h0
      have e1 : b1 = 254 := by simpa using h1
      subst e0; subst e1
      simp [getFileEncoding, bsGet]
    · intro hc
      obtain ⟨h0, h1⟩ := hc
      simp only [List.get?] at h0 h1
      have e0 : b0 = 254 := by simpa using h0
      have e1 : b1 = 255 := by simpa using h1
      subst e0; subst e1
      simp [getFileEncoding, bsGet]
    · intro hn1 hn2 _
      simp only [List.get?, Option.some.injEq] at hn1 hn2
      simp only [getFileEncoding, bsGet, List.get?]
      simp only [hmod0, hmod1]
      have hc1 : ¬ (b0 = 255 ∧ b1 = 254) := by
        intro hcontra; exact hn1 ⟨by simp [hcontra.1], by simp [hcontra.2]⟩
      have hc2 : ¬ (b0 = 254 ∧ b1 = 255) := by
        intro hcontra; exact hn2 ⟨by simp [hcontra.1], by simp [hcontra.2]⟩
      simp [hc1, hc2]

/-- C9, witness: the amended classification applied to the concrete streams
`FF FE 41` and `FE FF 41`. -/
theorem getFileEncoding_classification_witness :
    (∀ b ∈ ([255, 254, 65] : List Nat), b < 256) ∧
    getFileEncoding { bytes := [255, 254, 65], pos := 0 } =
      (FileEncoding.Utf16LittleEndian, { bytes := [255, 254, 65], pos := 2 }) :=
  ⟨by decide, (getFileEncoding_classification [255, 254, 65] (by decide)).1 (by decide)⟩

/-! ## C1: `#include`/`#import` extraction -/

theorem include_import_not_both_prefixes (l : Str) :
    ¬ (hashInclude.isPrefixOf l = true ∧ hashImport.isPrefixOf l = true) := by
  rintro ⟨h1, h2⟩
  obtain ⟨t, ht⟩ := List.isPrefixOf_iff_prefix.mp h1
  rw [← ht] at h2
  have hfalse : hashImport.isPrefixOf (hashInclude ++ t) = false := rfl
  rw [hfalse] at h2
  exact Bool.noConfusion h2

/-- In an Objective-C source no line can pass the guard, because it would
have to start with both `#include` and `#import` at once. -/
theorem parseIncludeLine_objc_none (line : Str) : parseIncludeLine true line = none := by
  unfold parseIncludeLine
  rw [if_pos]
  by_cases hInc : hashInclude.isPrefixOf (leftTrim line) = true
  · have hImp : ¬ (hashImport.isPrefixOf (leftTrim line) = true) :=
      fun h2 => include_import_not_both_prefixes _ ⟨hInc, h2⟩
    right; right
    exact ⟨rfl, by simpa using hImp⟩
  · right; left
    simpa using hInc

/-- C1: the guard
`l.empty() || !l.starts_with("#include") || (isObjC && !l.starts_with("#import"))`
makes the scan extract nothing at all from an Objective-C source (neither
`#import` nor even `#include` lines survive it), and `#import` lines are
also skipped in non-Objective-C sources; only `#include` lines in
non-Objective-C sources are extracted — contradicting the claim, which the
dead `#import` offset (`l.starts_with("#include") ? 8_uz : 7_uz`) shows was
intended to be honoured. -/
theorem include_extraction_objc_bug :
    (∀ line : Str, parseIncludeLine true line = none) ∧
    parseIncludeLine true ("#import \"x.h\"".toList) = none ∧
    parseIncludeLine false ("#import \"x.h\"".toList) = none ∧
    parseIncludeLine false ("#include \"x.h\"".toList) = some ("x.h".toList, true) :=
  ⟨parseIncludeLine_objc_none, by decide, by decide, by decide⟩

/-! ## C2: termination of `findIncludePaths` -/

theorem incStep_slashI_foo (acc : List Str) :
    incStep ("/I foo".toList) 0 acc = .next 0 (acc ++ ["foo".toList]) := rfl

theorem incRun_slashI_foo_none (fuel : Nat) :
    ∀ acc, incRun ("/I foo".toList) fuel 0 acc = none := by
  induction fuel with
  | zero => intro acc; rfl
  | succ n ih =>
    intro acc
    show incRun ("/I foo".toList) (n + 1) 0 acc = none
    simp only [incRun, incStep_slashI_foo]
    exact ih _

/-- C2: `findIncludePaths` is not total.  On the command `/I foo` — an
unquoted include path running to the end of the string — `end` is `npos`
and `pos = end + 1` wraps to `0`, so the loop re-finds the same `/I`
forever: no amount of fuel makes the loop finish.  The comment in the
source ("that's ok because the substr call after will just use the size of
the string") shows the case was intended to terminate. -/
theorem findIncludePaths_diverges_on_trailing_bare_path :
    (∀ fuel acc, incRun ("/I foo".toList) fuel 0 acc = none) ∧
    (∀ fuel, findIncludePaths ("/I foo".toList) fuel = none) :=
  ⟨fun fuel acc => incRun_slashI_foo_none fuel acc,
   fun fuel => incRun_slashI_foo_none fuel []⟩

/-! ## C3: termination of the header fan-out driver -/

theorem incStep_divergeCmd (acc : List Str) :
    incStep divergeCmd.command 0 acc = .next 0 (acc ++ ["C:\\src\\a.cpp".toList]) := rfl

theorem incRun_divergeCmd_none (fuel : Nat) :
    ∀ acc, incRun divergeCmd.command fuel 0 acc = none := by
  induction fuel with
  | zero => intro acc; rfl
  | succ n ih =>
    intro acc
    show incRun divergeCmd.command (n + 1) 0 acc = none
    simp only [incRun, incStep_divergeCmd]
    exact ih _

theorem processCheckCommand_divergeCmd_none (allCmds : List CompileCommand)
    (fuel : Nat) (acc : List CompileCommand) :
    processCheckCommand divergeFS cexBuildDir allCmds fuel acc divergeCmd = none := by
  simp only [processCheckCommand]
  rw [show readFileLinesOf divergeFS (parsePath divergeCmd.file) = .ok [[]] from rfl]
  rw [incRun_divergeCmd_none fuel []]

theorem headerLoop_divergeFS_none (fuel : Nat) (allCmds : List CompileCommand) :
    headerLoop divergeFS cexBuildDir allCmds [divergeCmd] fuel = none := by
  cases fuel with
  | zero => rfl
  | succ n =>
    simp only [headerLoop, createCompileCommandsForHeaders, headersGo,
      processCheckCommand_divergeCmd_none]

/-- C3: the header fan-out driver does not terminate for every finite
filesystem.  On `divergeFS` — whose single tlog line `/c /IC:\SRC\A.CPP`
yields a command with an unquoted `/I` argument running to the end of the
string — the very first fan-out iteration hangs inside `findIncludePaths`
(the `npos + 1` wraparound of C2), so `createCompileCommands` never
returns, for any fuel.  The claim's monotonicity-plus-finiteness argument
is what the code intends, but the iteration body itself can fail to
terminate. -/
theorem createCompileCommands_diverges_on_divergeFS (fuel : Nat) :
    createCompileCommands divergeFS cexBuildDir cexTlogs false fuel = none := by
  simp only [createCompileCommands]
  rw [show buildSourceCommands divergeFS cexBuildDir cexTlogs = .ok [divergeCmd] from rfl]
  simp only [Bool.false_eq_true, if_false]
  exact headerLoop_divergeFS_none fuel [divergeCmd]

/-! ## C10: the header-command replacement is always in bounds -/

theorem strFindGo_some_of_match (hay needle : Str) (i : Nat)
    (hm : needle.isPrefixOf (hay.drop i) = true) :
    ∀ n pos, pos ≤ i → i < pos + n → ∃ p, strFindGo hay needle n pos = some p := by
  intro n
  induction n with
  | zero => intro pos _ hin; omega
  | succ n ih =>
    intro pos hi hin
    by_cases hp : needle.isPrefixOf (hay.drop pos) = true
    · exact ⟨pos, by simp [strFindGo, hp]⟩
    · have hne : i ≠ pos := fun hcontra => hp (hcontra ▸ hm)
      obtain ⟨p, hpE⟩ := ih (pos + 1) (by omega) (by omega)
      exact ⟨p, by simp [strFindGo, hp, hpE]⟩

theorem strFind_some_of_infix (hay needle : Str) (h : needle <:+: hay) :
    ∃ p, strFind hay needle 0 = some p := by
  obtain ⟨s, t, hst⟩ := h
  have hdrop : hay.drop s.length = needle ++ t := by
    rw [← hst, List.append_assoc, List.drop_left]
  have hm : needle.isPrefixOf (hay.drop s.length) = true := by
    rw [hdrop]
    exact List.isPrefixOf_iff_prefix.mpr ⟨t, rfl⟩
  have hlen : s.length ≤ hay.length := by
    rw [← hst]
    simp only [List.length_append]
    omega
  exact strFindGo_some_of_match hay needle s.length hm (hay.length + 1) 0
    (Nat.zero_le _) (by omega)

theorem gccRev_error_kind (fs : FileSystem) :
    ∀ rp e, gccRev fs rp = .error e →
      e = .pathNotFound ∨ e = .parentMissing ∨ e = .noCaseMatch := by
  intro rp
  induction rp with
  | nil =>
    intro e h
    simp only [gccRev] at h
    split at h
    · exact Or.inl (Except.error.inj h).symm
    · exact absurd h (by simp)
  | cons hd tl ih =>
    intro e h
    cases tl with
    | nil =>
      simp only [gccRev] at h
      split at h
      · exact Or.inl (Except.error.inj h).symm
      · exact absurd h (by simp)
    | cons hd2 tl2 =>
      simp only [gccRev] at h
      split at h
      · exact Or.inl (Except.error.inj h).symm
      · split at h
        · exact Or.inr (Or.inl (Except.error.inj h).symm)
        · split at h
          · exact Or.inr (Or.inr (Except.error.inj h).symm)
          · split at h
            · exact absurd h (by simp)
            · rename_i herr
              exact ih _ ((Except.error.inj h) ▸ herr)

theorem getCorrectCasingForPath_error_kind (fs : FileSystem) (p : Path) (e : Err)
    (h : getCorrectCasingForPath fs p = .error e) :
    e = .pathNotFound ∨ e = .parentMissing ∨ e = .noCaseMatch :=
  gccRev_error_kind fs p.reverse e h

theorem tryCandidate_no_replace_error (fs : FileSystem) (bd : Path)
    (allCmds acc : List CompileCommand) (ip : Path) (inc sourceFile command : Str)
    (hsub : sourceFile <:+: command) :
    tryCandidate fs bd allCmds acc ip inc sourceFile command ≠ .error .replaceOutOfRange := by
  simp only [tryCandidate]
  split
  · simp
  · split
    · rename_i e herr
      intro hcontra
      have he : e = Err.replaceOutOfRange := by
        simpa using hcontra
      rcases getCorrectCasingForPath_error_kind fs _ e herr with h | h | h <;>
        simp [h] at he
    · split
      · simp
      · obtain ⟨p, hp⟩ := strFind_some_of_infix command sourceFile hsub
        rw [hp]
        simp

theorem tryIncludePaths_no_replace_error (fs : FileSystem) (bd : Path)
    (allCmds : List CompileCommand) (inc sourceFile command : Str)
    (hsub : sourceFile <:+: command) :
    ∀ ips acc, tryIncludePaths fs bd allCmds inc sourceFile command acc ips ≠
      .error .replaceOutOfRange := by
  intro ips
  induction ips with
  | nil => intro acc; simp [tryIncludePaths]
  | cons ip rest ih =>
    intro acc
    unfold tryIncludePaths
    cases htc : tryCandidate fs bd allCmds acc (parsePath ip) inc sourceFile command with
    | error e =>
      intro hcontra
      have he : e = .replaceOutOfRange := (Except.error.inj hcontra)
      exact tryCandidate_no_replace_error fs bd allCmds acc (parsePath ip) inc
        sourceFile command hsub (he ▸ htc)
    | ok acc2 => exact ih acc2

theorem processIncludedFiles_no_replace_error (fs : FileSystem) (bd : Path)
    (allCmds : List CompileCommand) (sourceFile command : Str) (ips : List Str)
    (hsub : sourceFile <:+: command) :
    ∀ incs acc, processIncludedFiles fs bd allCmds sourceFile command ips acc incs ≠
      .error .replaceOutOfRange := by
  intro incs
  induction incs with
  | nil => intro acc; simp [processIncludedFiles]
  | cons hdinc rest ih =>
    intro acc
    obtain ⟨fileName, usesQuotes⟩ := hdinc
    simp only [processIncludedFiles]
    split
    · rename_i e hfirst
      intro hcontra
      have he : e = Err.replaceOutOfRange := by simpa using hcontra
      subst he
      cases usesQuotes with
      | false => simp at hfirst
      | true =>
        simp only [if_pos] at hfirst
        exact tryCandidate_no_replace_error fs bd allCmds acc
          ((parsePath sourceFile).dropLast) fileName sourceFile command hsub hfirst
    · rename_i acc1 hfirst
      split
      · rename_i e htip
        intro hcontra
        have he : e = Err.replaceOutOfRange := by simpa using hcontra
        exact tryIncludePaths_no_replace_error fs bd allCmds fileName sourceFile
          command hsub ips acc1 (he ▸ htip)
      · rename_i acc2 htip
        exact ih acc2

theorem readFileLinesOf_error_kind (fs : FileSystem) (p : Path) (e : Err)
    (h : readFileLinesOf fs p = .error e) : e = .streamUnreadable := by
  unfold readFileLinesOf at h
  split at h
  · exact (Except.error.inj h).symm
  · exact absurd h (by simp)

theorem incStep_fail_kind (command : Str) (pos : Nat) (acc : List Str) (e : Err)
    (h : incStep command pos acc = .fail e) : e = .malformedInclude := by
  simp only [incStep] at h
  split at h
  · exact absurd h (by simp)
  · split at h
    · exact (IncStep.fail.inj h).symm
    · split at h
      · split at h
        · exact (IncStep.fail.inj h).symm
        · exact absurd h (by simp)
      · exact absurd h (by simp)

theorem incRun_error_kind (command : Str) :
    ∀ fuel pos acc e, incRun command fuel pos acc = some (.error e) →
      e = .malformedInclude := by
  intro fuel
  induction fuel with
  | zero => intro pos acc e h; exact absurd h (by simp [incRun])
  | succ n ih =>
    intro pos acc e h
    unfold incRun at h
    split at h
    · exact absurd h (by simp)
    · rename_i e2 hstep
      have : e2 = e := by simpa using h
      exact incStep_fail_kind command pos acc e (this ▸ hstep)
    · exact ih _ _ _ h

theorem processCheckCommand_no_replace_error (fs : FileSystem) (bd : Path)
    (allCmds : List CompileCommand) (fuel : Nat) (acc : List CompileCommand)
    (c : CompileCommand) (hsub : c.file <:+: c.command) :
    processCheckCommand fs bd allCmds fuel acc c ≠ some (.error .replaceOutOfRange) := by
  simp only [processCheckCommand]
  split
  · rename_i e herr
    intro hcontra
    have he : e = Err.replaceOutOfRange := by simpa using hcontra
    have := readFileLinesOf_error_kind fs (parsePath c.file) e herr
    simp [this] at he
  · rename_i lines hlines
    split
    · simp
    · rename_i e hrun
      intro hcontra
      have he : e = Err.replaceOutOfRange := by simpa using hcontra
      have := incRun_error_kind c.command fuel 0 [] e hrun
      simp [this] at he
    · rename_i ips hrun
      intro hcontra
      have h2 : processIncludedFiles fs bd allCmds c.file c.command ips acc
          (List.filterMap (parseIncludeLine (['m'].isSuffixOf c.file)) lines) =
          .error .replaceOutOfRange := by simpa using hcontra
      exact processIncludedFiles_no_replace_error fs bd allCmds c.file c.command ips
        hsub _ acc h2

theorem headersGo_no_replace_error (fs : FileSystem) (bd : Path)
    (allCmds : List CompileCommand) (fuel : Nat) :
    ∀ toCheck acc, (∀ c ∈ toCheck, c.file <:+: c.command) →
      headersGo fs bd allCmds fuel acc toCheck ≠ some (.error .replaceOutOfRange) := by
  intro toCheck
  induction toCheck with
  | nil => intro acc _; simp [headersGo]
  | cons c rest ih =>
    intro acc hsub
    unfold headersGo
    cases hpc : processCheckCommand fs bd allCmds fuel acc c with
    | none => simp
    | some r =>
      cases r with
      | error e =>
        intro hcontra
        have he : e = .replaceOutOfRange := by simpa using hcontra
        exact processCheckCommand_no_replace_error fs bd allCmds fuel acc c
          (hsub c (List.mem_cons_self c rest)) (he ▸ hpc)
      | ok acc2 =>
        exact ih acc2 (fun x hx => hsub x (List.mem_cons_of_mem c hx))

/-- C10: if every command in `toCheck` has its `file` as a substring of its
`command`, then the `command.find(sourceFile)` lookup in the header
synthesiser always succeeds, and `createCompileCommandsForHeaders` can
never surface the out-of-range error of the subsequent `replace`. -/
theorem createCompileCommandsForHeaders_replace_in_bounds (fs : FileSystem) (bd : Path)
    (toCheck allCmds : List CompileCommand) (fuel : Nat)
    (hsub : ∀ c ∈ toCheck, c.file <:+: c.command) :
    (∀ c ∈ toCheck, ∃ p, strFind c.command c.file 0 = some p) ∧
    createCompileCommandsForHeaders fs bd toCheck allCmds fuel ≠
      some (.error .replaceOutOfRange) :=
  ⟨fun c hc => strFind_some_of_infix c.command c.file (hsub c hc),
   headersGo_no_replace_error fs bd allCmds fuel toCheck [] hsub⟩

/-- C10, witness: the in-bounds property at the concrete source command of
`cexFS`. -/
theorem createCompileCommandsForHeaders_replace_in_bounds_witness :
    (∀ c ∈ [divergeCmd], c.file <:+: c.command) ∧
    ((∀ c ∈ [divergeCmd], ∃ p, strFind c.command c.file 0 = some p) ∧
      createCompileCommandsForHeaders cexFS cexBuildDir [divergeCmd] [divergeCmd] 10 ≠
        some (.error .replaceOutOfRange)) :=
  ⟨by decide,
   createCompileCommandsForHeaders_replace_in_bounds cexFS cexBuildDir [divergeCmd]
     [divergeCmd] 10 (by decide)⟩

/-! ## C6: casing failures are a warning for sources, fatal for headers -/

/-- C6: when `getCorrectCasingForPath` fails for the source path recovered
from a tlog line, the line is skipped (warning only) and `processTlogLine`
succeeds with the accumulator unchanged; in the header fan-out, a candidate
that does not exist is skipped silently, but a candidate that exists and
whose case-correction fails makes the helper — and with it the whole
operation — return that error. -/
theorem casing_failure_source_warns_header_fails (fs : FileSystem) (bd : Path)
    (acc allCmds : List CompileCommand) (line : Str) (i : Nat) (e : Err)
    (ip : Path) (inc sourceFile command : Str) (e2 : Err) (ips : List Str)
    (rest : List (Str × Bool))
    (h1 : (['/', 'c']).isPrefixOf line = true)
    (h2 : extensions.any (fun ext => ext.isSuffixOf line) = true)
    (h3 : scanDrive line (line.length - 2) = some i)
    (h4 : getCorrectCasingForPath fs (parsePath (line.drop i)) = .error e)
    (h5 : fsExists fs (lexicallyNormal (ip ++ parsePath inc)) = true)
    (h6 : getCorrectCasingForPath fs (lexicallyNormal (ip ++ parsePath inc)) = .error e2) :
    processTlogLine fs bd acc line = .ok acc ∧
    tryCandidate fs bd allCmds acc ip inc sourceFile command = .error e2 ∧
    (∀ ip2 inc2, fsExists fs (lexicallyNormal (ip2 ++ parsePath inc2)) = false →
      tryCandidate fs bd allCmds acc ip2 inc2 sourceFile command = .ok acc) ∧
    (tryCandidate fs bd allCmds acc ((parsePath sourceFile).dropLast) inc
        sourceFile command = .error e2 →
      processIncludedFiles fs bd allCmds sourceFile command ips acc
        ((inc, true) :: rest) = .error e2) := by
  refine ⟨?_, ?_, ?_, ?_⟩
  · simp only [processTlogLine, h1, h2, h3, h4]
    simp
  · simp only [tryCandidate, h5, h6]
    simp
  · intro ip2 inc2 hne
    simp only [tryCandidate, hne]
    simp
  · intro hq
    simp only [processIncludedFiles, hq]
    simp

/-- C6, witness: on a filesystem where `a\b` exists but `a` is not listed
as a directory, the tlog line's source path fails to case-correct (it does
not exist) and is skipped, while the header candidate `a\b` exists but its
case-correction fails with `parentMissing` and the error is returned. -/
theorem casing_failure_source_warns_header_fails_witness :
    ((['/', 'c']).isPrefixOf ("/c X:\\A.CPP".toList) = true ∧
     extensions.any (fun ext => ext.isSuffixOf ("/c X:\\A.CPP".toList)) = true ∧
     scanDrive ("/c X:\\A.CPP".toList) (("/c X:\\A.CPP".toList).length - 2) = some 3 ∧
     getCorrectCasingForPath ⟨[["a".toList, "b".toList]], [], []⟩
       (parsePath (("/c X:\\A.CPP".toList).drop 3)) = .error .pathNotFound ∧
     fsExists ⟨[["a".toList, "b".toList]], [], []⟩
       (lexicallyNormal (["a".toList] ++ parsePath ("b".toList))) = true ∧
     getCorrectCasingForPath ⟨[["a".toList, "b".toList]], [], []⟩
       (lexicallyNormal (["a".toList] ++ parsePath ("b".toList))) = .error .parentMissing) ∧
    processTlogLine ⟨[["a".toList, "b".toList]], [], []⟩ cexBuildDir [] ("/c X:\\A.CPP".toList) = .ok [] :=
  ⟨⟨by decide, by decide, by decide, by decide, by decide, by decide⟩,
   (casing_failure_source_warns_header_fails ⟨[["a".toList, "b".toList]], [], []⟩
      cexBuildDir [] [] ("/c X:\\A.CPP".toList) 3 .pathNotFound ["a".toList]
      ("b".toList) ("x".toList) ("y".toList) .parentMissing [] []
      (by decide) (by decide) (by decide) (by decide) (by decide) (by decide)).1⟩

/-! ## C4: no two emitted commands share a `file` -/

theorem processTlogLine_ok_shape (fs : FileSystem) (bd : Path)
    (acc acc2 : List CompileCommand) (line : Str)
    (h : processTlogLine fs bd acc line = .ok acc2) :
    acc2 = acc ∨ ∃ cc : CompileCommand, acc2 = acc ++ [cc] ∧
      acc.any (fun c => c.file == cc.file) = false := by
  simp only [processTlogLine] at h
  split at h
  · exact Or.inl (Except.ok.inj h).symm
  · split at h
    · exact absurd h (by simp)
    · split at h
      · exact Or.inl (Except.ok.inj h).symm
      · split at h
        · exact Or.inl (Except.ok.inj h).symm
        · split at h
          · exact Or.inl (Except.ok.inj h).symm
          · rename_i q i hgcc hdup
            refine Or.inr ⟨_, (Except.ok.inj h).symm, ?_⟩
            simpa using hdup

theorem tryCandidate_ok_shape (fs : FileSystem) (bd : Path)
    (allCmds acc acc2 : List CompileCommand) (ip : Path) (inc sourceFile command : Str)
    (h : tryCandidate fs bd allCmds acc ip inc sourceFile command = .ok acc2) :
    acc2 = acc ∨ ∃ cc : CompileCommand, acc2 = acc ++ [cc] ∧
      allCmds.any (fun c => c.file == cc.file) = false ∧
      acc.any (fun c => c.file == cc.file) = false := by
  simp only [tryCandidate] at h
  split at h
  · exact Or.inl (Except.ok.inj h).symm
  · split at h
    · exact absurd h (by simp)
    · split at h
      · exact Or.inl (Except.ok.inj h).symm
      · split at h
        · exact absurd h (by simp)
        · rename_i hdup xscr pos hfind
          refine Or.inr ⟨_, (Except.ok.inj h).symm, ?_, ?_⟩
          · simp only [not_or] at hdup
            exact Bool.eq_false_iff.mpr hdup.1
          · simp only [not_or] at hdup
            exact Bool.eq_false_iff.mpr hdup.2

/-- The invariant carried through the header fan-out: the accumulator has
pairwise-distinct `file`s, all distinct from those in `allCmds`. -/
def headerInv (allCmds acc : List CompileCommand) : Prop :=
  acc.Pairwise (fun a b => a.file ≠ b.file) ∧
  ∀ a ∈ acc, ∀ b ∈ allCmds, a.file ≠ b.file

theorem headerInv_extend (allCmds acc : List CompileCommand) (cc : CompileCommand)
    (hinv : headerInv allCmds acc)
    (hall : allCmds.any (fun c => c.file == cc.file) = false)
    (hacc : acc.any (fun c => c.file == cc.file) = false) :
    headerInv allCmds (acc ++ [cc]) := by
  obtain ⟨hpair, hdisj⟩ := hinv
  have hallP : ∀ b ∈ allCmds, ¬ (b.file == cc.file) = true := by
    simpa using List.any_eq_false.mp hall
  have haccP : ∀ a ∈ acc, ¬ (a.file == cc.file) = true := by
    simpa using List.any_eq_false.mp hacc
  constructor
  · rw [List.pairwise_append]
    refine ⟨hpair, by simp, ?_⟩
    intro a ha b hb
    have : b = cc := by simpa using hb
    subst this
    intro hcontra
    exact haccP a ha (by simp [hcontra])
  · intro a ha b hb
    rcases List.mem_append.mp ha with ha2 | ha2
    · exact hdisj a ha2 b hb
    · have : a = cc := by simpa using ha2
      subst this
      intro hcontra
      exact hallP b hb (by simp [hcontra])

theorem tryCandidate_inv (fs : FileSystem) (bd : Path)
    (allCmds acc acc2 : List CompileCommand) (ip : Path) (inc sourceFile command : Str)
    (h : tryCandidate fs bd allCmds acc ip inc sourceFile command = .ok acc2)
    (hinv : headerInv allCmds acc) : headerInv allCmds acc2 := by
  rcases tryCandidate_ok_shape fs bd allCmds acc acc2 ip inc sourceFile command h with
    heq | ⟨cc, heq, hall, hacc⟩
  · exact heq ▸ hinv
  · exact heq ▸ headerInv_extend allCmds acc cc hinv hall hacc

theorem tryIncludePaths_inv (fs : FileSystem) (bd : Path)
    (allCmds : List CompileCommand) (inc sourceFile command : Str) :
    ∀ ips acc acc2, tryIncludePaths fs bd allCmds inc sourceFile command acc ips = .ok acc2 →
      headerInv allCmds acc → headerInv allCmds acc2 := by
  intro ips
  induction ips with
  | nil =>
    intro acc acc2 h hinv
    simp only [tryIncludePaths] at h
    exact (Except.ok.inj h) ▸ hinv
  | cons ip rest ih =>
    intro acc acc2 h hinv
    simp only [tryIncludePaths] at h
    split at h
    · exact absurd h (by simp)
    · rename_i accMid hmid
      exact ih accMid acc2 h (tryCandidate_inv fs bd allCmds acc accMid _ inc
        sourceFile command hmid hinv)

theorem processIncludedFiles_inv (fs : FileSystem) (bd : Path)
    (allCmds : List CompileCommand) (sourceFile command : Str) (ips : List Str) :
    ∀ incs acc acc2,
      processIncludedFiles fs bd allCmds sourceFile command ips acc incs = .ok acc2 →
      headerInv allCmds acc → headerInv allCmds acc2 := by
  intro incs
  induction incs with
  | nil =>
    intro acc acc2 h hinv
    simp only [processIncludedFiles] at h
    exact (Except.ok.inj h) ▸ hinv
  | cons hdinc rest ih =>
    intro acc acc2 h hinv
    obtain ⟨fileName, usesQuotes⟩ := hdinc
    simp only [processIncludedFiles] at h
    split at h
    · exact absurd h (by simp)
    · rename_i acc1 hfirst
      have hinv1 : headerInv allCmds acc1 := by
        cases usesQuotes with
        | false =>
          simp at hfirst
          exact hfirst ▸ hinv
        | true =>
          simp only [if_pos] at hfirst
          exact tryCandidate_inv fs bd allCmds acc acc1 _ fileName sourceFile
            command hfirst hinv
      split at h
      · exact absurd h (by simp)
      · rename_i acc3 htip
        exact ih acc3 acc2 h (tryIncludePaths_inv fs bd allCmds fileName sourceFile
          command ips acc1 acc3 htip hinv1)

theorem headersGo_inv (fs : FileSystem) (bd : Path) (allCmds : List CompileCommand)
    (fuel : Nat) :
    ∀ toCheck acc acc2, headersGo fs bd allCmds fuel acc toCheck = some (.ok acc2) →
      headerInv allCmds acc → headerInv allCmds acc2 := by
  intro toCheck
  induction toCheck with
  | nil =>
    intro acc acc2 h hinv
    simp only [headersGo] at h
    exact (by simpa using h : acc = acc2) ▸ hinv
  | cons c rest ih =>
    intro acc acc2 h hinv
    simp only [headersGo] at h
    split at h
    · exact absurd h (by simp)
    · exact absurd h (by simp)
    · rename_i accMid hpc
      refine ih accMid acc2 h ?_
      simp only [processCheckCommand] at hpc
      split at hpc
      · exact absurd hpc (by simp)
      · rename_i lines hlines
        split at hpc
        · exact absurd hpc (by simp)
        · exact absurd hpc (by simp)
        · rename_i ips hrun
          have hpif : processIncludedFiles fs bd allCmds c.file c.command ips acc
              (List.filterMap (parseIncludeLine (['m'].isSuffixOf c.file)) lines) =
              .ok accMid := by simpa using hpc
          exact processIncludedFiles_inv fs bd allCmds c.file c.command ips
            (List.filterMap (parseIncludeLine (['m'].isSuffixOf c.file)) lines) acc
            accMid hpif hinv

theorem createCompileCommandsForHeaders_batch_inv (fs : FileSystem) (bd : Path)
    (toCheck allCmds batch : List CompileCommand) (fuel : Nat)
    (h : createCompileCommandsForHeaders fs bd toCheck allCmds fuel = some (.ok batch)) :
    batch.Pairwise (fun a b => a.file ≠ b.file) ∧
    ∀ a ∈ batch, ∀ b ∈ allCmds, a.file ≠ b.file :=
  headersGo_inv fs bd allCmds fuel toCheck [] batch h ⟨List.Pairwise.nil, by simp⟩

theorem headerLoop_distinct (fs : FileSystem) (bd : Path) :
    ∀ fuel allCmds toCheck out,
      headerLoop fs bd allCmds toCheck fuel = some (.ok out) →
      allCmds.Pairwise (fun a b => a.file ≠ b.file) →
      out.Pairwise (fun a b => a.file ≠ b.file) := by
  intro fuel
  induction fuel with
  | zero => intro allCmds toCheck out h _; exact absurd h (by simp [headerLoop])
  | succ n ih =>
    intro allCmds toCheck out h hall
    simp only [headerLoop] at h
    split at h
    · exact absurd h (by simp)
    · exact absurd h (by simp)
    · rename_i batch hbatch
      split at h
      · exact (by simpa using h : allCmds = out) ▸ hall
      · obtain ⟨hpair, hdisj⟩ :=
          createCompileCommandsForHeaders_batch_inv fs bd toCheck allCmds batch
            (n + 1) hbatch
        refine ih (allCmds ++ batch) batch out h ?_
        rw [List.pairwise_append]
        refine ⟨hall, hpair, ?_⟩
        intro a ha b hb
        exact (hdisj b hb a ha).symm

theorem foldTlogLines_distinct (fs : FileSystem) (bd : Path) :
    ∀ lines acc acc2, foldTlogLines fs bd acc lines = .ok acc2 →
      acc.Pairwise (fun a b => a.file ≠ b.file) →
      acc2.Pairwise (fun a b => a.file ≠ b.file) := by
  intro lines
  induction lines with
  | nil =>
    intro acc acc2 h hd
    simp only [foldTlogLines] at h
    exact (Except.ok.inj h) ▸ hd
  | cons line rest ih =>
    intro acc acc2 h hd
    simp only [foldTlogLines] at h
    split at h
    · exact absurd h (by simp)
    · rename_i accMid hline
      refine ih accMid acc2 h ?_
      rcases processTlogLine_ok_shape fs bd acc accMid line hline with
        heq | ⟨cc, heq, hacc⟩
      · exact heq ▸ hd
      · subst heq
        rw [List.pairwise_append]
        refine ⟨hd, by simp, ?_⟩
        intro a ha b hb
        have hbcc : b = cc := by simpa using hb
        subst hbcc
        have haccP : ∀ x ∈ acc, ¬ (x.file == b.file) = true := by
          simpa using List.any_eq_false.mp hacc
        intro hcontra
        exact haccP a ha (by simp [hcontra])

theorem sourcesGo_distinct (fs : FileSystem) (bd : Path) :
    ∀ tlogFiles acc acc2, sourcesGo fs bd acc tlogFiles = .ok acc2 →
      acc.Pairwise (fun a b => a.file ≠ b.file) →
      acc2.Pairwise (fun a b => a.file ≠ b.file) := by
  intro tlogFiles
  induction tlogFiles with
  | nil =>
    intro acc acc2 h hd
    simp only [sourcesGo] at h
    exact (Except.ok.inj h) ▸ hd
  | cons f rest ih =>
    intro acc acc2 h hd
    simp only [sourcesGo] at h
    split at h
    · exact absurd h (by simp)
    · split at h
      · exact absurd h (by simp)
      · rename_i accMid hfold
        exact ih accMid acc2 h (foldTlogLines_distinct fs bd _ acc accMid hfold hd)

/-- C4: every successful run of `createCompileCommands` — with or without
the header fan-out — emits a sequence in which no two `CompileCommand`
entries share the same `file` string (case-sensitive comparison on the
case-corrected form). -/
theorem createCompileCommands_files_unique (fs : FileSystem) (bd : Path)
    (tlogFiles : List Path) (skipHeaders : Bool) (fuel : Nat)
    (cmds : List CompileCommand)
    (h : createCompileCommands fs bd tlogFiles skipHeaders fuel = some (.ok cmds)) :
    cmds.Pairwise (fun a b => a.file ≠ b.file) := by
  simp only [createCompileCommands] at h
  split at h
  · exact absurd h (by simp)
  · rename_i src hsrc
    have hsd : src.Pairwise (fun a b => a.file ≠ b.file) :=
      sourcesGo_distinct fs bd tlogFiles [] src hsrc List.Pairwise.nil
    split at h
    · exact (by simpa using h : src = cmds) ▸ hsd
    · exact headerLoop_distinct fs bd fuel src src cmds h hsd

/-- C4, witness: the full run on `cexFS` emits three entries with three
distinct `file`s. -/
theorem createCompileCommands_files_unique_witness :
    createCompileCommands cexFS cexBuildDir cexTlogs false 10 = some (.ok cexOut) ∧
    cexOut.Pairwise (fun a b => a.file ≠ b.file) :=
  ⟨by rfl, createCompileCommands_files_unique cexFS cexBuildDir cexTlogs false 10
    cexOut (by rfl)⟩

/-! ## C7: case-correction is idempotent -/

theorem lowerPath_append (a b : Path) : lowerPath (a ++ b) = lowerPath a ++ lowerPath b := by
  simp [lowerPath]

theorem lowerPath_length (p : Path) : (lowerPath p).length = p.length := by
  simp [lowerPath]

theorem fsExists_congr (fs : FileSystem) (a b : Path) (h : lowerPath a = lowerPath b) :
    fsExists fs a = fsExists fs b := by
  simp only [fsExists, h]

theorem fsIsDir_congr (fs : FileSystem) (a b : Path) (h : lowerPath a = lowerPath b) :
    fsIsDir fs a = fsIsDir fs b := by
  simp only [fsIsDir, h]

theorem childNames_congr (fs : FileSystem) (a b : Path) (h : lowerPath a = lowerPath b) :
    childNames fs a = childNames fs b := by
  simp only [childNames, h]

/-- Case-correction preserves the path up to ASCII case: the result has the
same lowercased components as the input. -/
theorem gccRev_lower (fs : FileSystem) :
    ∀ rp q, gccRev fs rp = .ok q → lowerPath q = lowerPath rp.reverse := by
  intro rp
  induction rp with
  | nil =>
    intro q h
    simp only [gccRev] at h
    split at h
    · exact absurd h (by simp)
    · simp [← Except.ok.inj h]
  | cons hd tl ih =>
    intro q h
    cases tl with
    | nil =>
      simp only [gccRev] at h
      split at h
      · exact absurd h (by simp)
      · simp [← Except.ok.inj h]
    | cons hd2 tl2 =>
      simp only [gccRev] at h
      split at h
      · exact absurd h (by simp)
      · split at h
        · exact absurd h (by simp)
        · split at h
          · exact absurd h (by simp)
          · rename_i e hfind
            split at h
            · rename_i q2 hrec
              have hq : q = q2 ++ [e] := (Except.ok.inj h).symm
              subst hq
              have hle : lowerComp e = lowerComp hd := by
                have := List.find?_some hfind
                simpa using this
              have ihq : lowerPath q2 = lowerPath (hd2 :: tl2).reverse := ih q2 hrec
              rw [List.reverse_cons, lowerPath_append, lowerPath_append, ihq]
              simp [lowerPath, hle]
            · exact absurd h (by simp)

theorem gccRev_length (fs : FileSystem) (rp q : Path) (h : gccRev fs rp = .ok q) :
    q.length = rp.length := by
  have := congrArg List.length (gccRev_lower fs rp q h)
  simpa [lowerPath_length] using this

/-- Applying `gccRev` to (the reversal of) its own successful result gives
the same result back. -/
theorem gccRev_idempotent (fs : FileSystem) :
    ∀ rp q, gccRev fs rp = .ok q → gccRev fs q.reverse = .ok q := by
  intro rp
  induction rp with
  | nil =>
    intro q h
    simp only [gccRev] at h
    split at h
    · exact absurd h (by simp)
    · rename_i hex
      have hq : q = [] := (Except.ok.inj h).symm
      subst hq
      simp only [List.reverse_nil, gccRev]
      simp only [not_true_eq_false, not_not] at hex ⊢
      simp [hex]
  | cons hd tl ih =>
    intro q h
    cases tl with
    | nil =>
      simp only [gccRev] at h
      split at h
      · exact absurd h (by simp)
      · rename_i hex
        have hq : q = [hd] := (Except.ok.inj h).symm
        subst hq
        simp only [List.reverse_cons, List.reverse_nil, List.nil_append, gccRev]
        simp only [not_not] at hex ⊢
        simp [hex]
    | cons hd2 tl2 =>
      simp only [gccRev] at h
      split at h
      · exact absurd h (by simp)
      · rename_i hex
        split at h
        · exact absurd h (by simp)
        · rename_i hdir
          split at h
          · exact absurd h (by simp)
          · rename_i e hfind
            split at h
            · rename_i q2 hrec
              have hq : q = q2 ++ [e] := (Except.ok.inj h).symm
              subst hq
              have hle : lowerComp e = lowerComp hd := by
                have := List.find?_some hfind
                simpa using this
              have hlow2 : lowerPath q2 = lowerPath (hd2 :: tl2).reverse :=
                gccRev_lower fs (hd2 :: tl2) q2 hrec
              have hlowfull : lowerPath (q2 ++ [e]) =
                  lowerPath ((hd :: hd2 :: tl2).reverse) := by
                rw [List.reverse_cons, lowerPath_append, lowerPath_append, hlow2]
                simp [lowerPath, hle]
              have hlen2 : q2.length = (hd2 :: tl2).length :=
                gccRev_length fs (hd2 :: tl2) q2 hrec
              have hq2ne : q2 ≠ [] := by
                intro hcontra
                rw [hcontra] at hlen2
                simp at hlen2
              cases hq2 : q2.reverse with
              | nil => exact absurd (by simpa using congrArg List.reverse hq2) hq2ne
              | cons y ys =>
                have hrevq : (q2 ++ [e]).reverse = e :: y :: ys := by
                  rw [List.reverse_append]
                  simp [hq2]
                rw [hrevq]
                simp only [gccRev]
                have hyys : (y :: ys).reverse = q2 := by
                  rw [← hq2, List.reverse_reverse]
                have hprev : (e :: y :: ys).reverse = q2 ++ [e] := by
                  rw [← hrevq, List.reverse_reverse]
                have hex2 : fsExists fs ((e :: y :: ys).reverse) = true := by
                  rw [hprev, fsExists_congr fs (q2 ++ [e]) ((hd :: hd2 :: tl2).reverse)
                    hlowfull]
                  simpa using hex
                have hdir2 : fsIsDir fs ((y :: ys).reverse) = true := by
                  rw [hyys, fsIsDir_congr fs q2 ((hd2 :: tl2).reverse) hlow2]
                  simpa using hdir
                have hchild : childNames fs ((y :: ys).reverse) =
                    childNames fs ((hd2 :: tl2).reverse) := by
                  rw [hyys]
                  exact childNames_congr fs q2 ((hd2 :: tl2).reverse) hlow2
                have hfind2 : (childNames fs ((y :: ys).reverse)).find?
                    (fun x => lowerComp x == lowerComp e) = some e := by
                  rw [hchild, hle]
                  exact hfind
                have hrec2 : gccRev fs (y :: ys) = .ok q2 := by
                  have h2 := ih q2 hrec
                  rw [hq2] at h2
                  exact h2
                rw [List.reverse_cons] at hprev
                simp only [hprev] at hex2 ⊢
                simp only [hex2, not_true_eq_false, if_false, Bool.not_eq_true] at *
                simp only [hdir2, not_true_eq_false, if_false]
                rw [hfind2, hrec2]
                simp
            · exact absurd h (by simp)

/-- C7: `getCorrectCasingForPath` is idempotent: applying the
case-corrector to its own successful result returns the same path. -/
theorem getCorrectCasingForPath_idempotent (fs : FileSystem) (p q : Path)
    (h : getCorrectCasingForPath fs p = .ok q) :
    getCorrectCasingForPath fs q = .ok q := by
  have := gccRev_idempotent fs p.reverse q h
  simpa [getCorrectCasingForPath] using this

/-- C7, witness: idempotence at the concrete uppercased path
`C:\SRC\A.CPP` on `cexFS`. -/
theorem getCorrectCasingForPath_idempotent_witness :
    getCorrectCasingForPath cexFS (parsePath ("C:\\SRC\\A.CPP".toList)) =
      .ok ["C:".toList, "src".toList, "a.cpp".toList] ∧
    getCorrectCasingForPath cexFS ["C:".toList, "src".toList, "a.cpp".toList] =
      .ok ["C:".toList, "src".toList, "a.cpp".toList] :=
  ⟨by rfl, getCorrectCasingForPath_idempotent cexFS
    (parsePath ("C:\\SRC\\A.CPP".toList)) ["C:".toList, "src".toList, "a.cpp".toList]
    (by rfl)⟩

/-! ## C5: per-entry invariants -/

/-- A usable path component: nonempty and free of either separator. -/
def goodComp (c : Comp) : Prop := c ≠ [] ∧ '/' ∉ c ∧ '\\' ∉ c

/-- All components of a path are usable. -/
def goodComps (p : Path) : Prop := ∀ c ∈ p, goodComp c

/-- Paths the filesystem reports have usable components (true of any real
directory tree: entry names are nonempty and cannot contain separators). -/
def WFgood (fs : FileSystem) : Prop := ∀ q ∈ fs.files, goodComps q

theorem splitSlashes_ne_nil (s : Str) : splitSlashes s ≠ [] := by
  cases s with
  | nil => simp [splitSlashes]
  | cons c rest =>
    simp only [splitSlashes]
    split
    · simp
    · split <;> simp

theorem splitSlashes_no_slash (s : Str) :
    ∀ c ∈ splitSlashes s, '/' ∉ c ∧ '\\' ∉ c := by
  induction s with
  | nil =>
    intro c hc
    have hc2 : c = [] := by simpa [splitSlashes] using hc
    simp [hc2]
  | cons ch rest ih =>
    intro c hc
    rcases hsplit : splitSlashes rest with _ | ⟨h0, t0⟩
    · exact absurd hsplit (splitSlashes_ne_nil rest)
    · have hih : ∀ x ∈ h0 :: t0, '/' ∉ x ∧ '\\' ∉ x :=
        fun x hx => ih x (hsplit.symm ▸ hx)
      have hceq : splitSlashes (ch :: rest) =
          if ch = '/' ∨ ch = '\\' then [] :: h0 :: t0 else (ch :: h0) :: t0 := by
        simp only [splitSlashes]
        rw [hsplit]
      rw [hceq] at hc
      by_cases hch : ch = '/' ∨ ch = '\\'
      · rw [if_pos hch] at hc
        rcases List.mem_cons.mp hc with hc2 | hc2
        · simp [hc2]
        · exact hih c hc2
      · rw [if_neg hch] at hc
        rcases List.mem_cons.mp hc with hc2 | hc2
        · subst hc2
          have hh0 := hih h0 (List.mem_cons_self _ _)
          refine ⟨?_, ?_⟩
          · intro hmem
            rcases List.mem_cons.mp hmem with he | he
            · exact hch (Or.inl he.symm)
            · exact hh0.1 he
          · intro hmem
            rcases List.mem_cons.mp hmem with he | he
            · exact hch (Or.inr he.symm)
            · exact hh0.2 he
        · exact hih c (List.mem_cons_of_mem _ hc2)

theorem parsePath_goodComps (s : Str) : goodComps (parsePath s) := by
  intro c hc
  simp only [parsePath] at hc
  have hmem := List.mem_of_mem_filter hc
  have hne := List.of_mem_filter hc
  exact ⟨by simpa using hne, (splitSlashes_no_slash s c hmem).1,
    (splitSlashes_no_slash s c hmem).2⟩

theorem splitSlashes_slashfree (c : Comp) (h1 : '/' ∉ c) (h2 : '\\' ∉ c) :
    splitSlashes c = [c] := by
  induction c with
  | nil => rfl
  | cons ch rest ih =>
    have hch : ¬ (ch = '/' ∨ ch = '\\') := by
      rintro (hc | hc) <;> subst hc
      · exact h1 (List.mem_cons_self _ _)
      · exact h2 (List.mem_cons_self _ _)
    have hrest := ih (fun hm => h1 (List.mem_cons_of_mem ch hm))
      (fun hm => h2 (List.mem_cons_of_mem ch hm))
    simp only [splitSlashes, hrest]
    simp [hch]

theorem splitSlashes_append_sep (c : Comp) (s : Str) (h1 : '/' ∉ c) (h2 : '\\' ∉ c) :
    splitSlashes (c ++ '\\' :: s) = c :: splitSlashes s := by
  induction c with
  | nil =>
    show splitSlashes ('\\' :: s) = [] :: splitSlashes s
    rcases hsplit : splitSlashes s with _ | ⟨h0, t0⟩
    · exact absurd hsplit (splitSlashes_ne_nil s)
    · simp only [splitSlashes]
      rw [hsplit]
      simp
  | cons ch rest ih =>
    have hch : ¬ (ch = '/' ∨ ch = '\\') := by
      rintro (hc | hc) <;> subst hc
      · exact h1 (List.mem_cons_self _ _)
      · exact h2 (List.mem_cons_self _ _)
    have hrest := ih (fun hm => h1 (List.mem_cons_of_mem ch hm))
      (fun hm => h2 (List.mem_cons_of_mem ch hm))
    show splitSlashes (ch :: (rest ++ '\\' :: s)) = (ch :: rest) :: splitSlashes s
    simp only [splitSlashes]
    rw [hrest]
    simp [hch]

theorem pathToString_single (c : Comp) : pathToString [c] = c := by
  simp [pathToString, List.intercalate]

theorem pathToString_cons (c c2 : Comp) (rest : Path) :
    pathToString (c :: c2 :: rest) = c ++ '\\' :: pathToString (c2 :: rest) := by
  simp [pathToString, List.intercalate]

theorem parse_toString_roundtrip (p : Path) (h : goodComps p) :
    parsePath (pathToString p) = p := by
  induction p with
  | nil => rfl
  | cons c rest ih =>
    cases rest with
    | nil =>
      obtain ⟨hne, h1, h2⟩ := h c (List.mem_cons_self c [])
      rw [pathToString_single]
      simp only [parsePath, splitSlashes_slashfree c h1 h2]
      simp [hne]
    | cons c2 rest2 =>
      obtain ⟨hne, h1, h2⟩ := h c (List.mem_cons_self c _)
      have htail : goodComps (c2 :: rest2) := fun x hx => h x (List.mem_cons_of_mem c hx)
      rw [pathToString_cons]
      simp only [parsePath, splitSlashes_append_sep c _ h1 h2]
      simp only [List.filter_cons]
      rw [if_pos (by simpa using hne)]
      have := ih htail
      simp only [parsePath] at this
      rw [this]

theorem getLastD_mem (q : List α) (d : α) (h : q ≠ []) : q.getLastD d ∈ q := by
  induction q generalizing d with
  | nil => exact absurd rfl h
  | cons a as ih =>
    cases has : as with
    | nil => simp [List.getLastD]
    | cons b bs =>
      rw [List.getLastD_cons]
      subst has
      exact List.mem_cons_of_mem a (ih a (by simp))

theorem lexNormAux_comps : ∀ (l acc : Path) (c : Comp), c ∈ lexNormAux acc l →
    c ∈ acc ∨ c ∈ l := by
  intro l
  induction l with
  | nil =>
    intro acc c hc
    exact Or.inl (by simpa [lexNormAux] using hc)
  | cons hd tl ih =>
    intro acc c hc
    simp only [lexNormAux] at hc
    split at hc
    · rcases ih acc c hc with h | h
      · exact Or.inl h
      · exact Or.inr (List.mem_cons_of_mem hd h)
    · split at hc
      · split at hc
        · split at hc
          · rcases ih (acc ++ [hd]) c hc with h | h
            · rcases List.mem_append.mp h with h2 | h2
              · exact Or.inl h2
              · exact Or.inr (List.mem_cons.mpr (Or.inl (by simpa using h2)))
            · exact Or.inr (List.mem_cons_of_mem hd h)
          · rcases ih acc.dropLast c hc with h | h
            · exact Or.inl (List.dropLast_subset _ h)
            · exact Or.inr (List.mem_cons_of_mem hd h)
        · rcases ih (acc ++ [hd]) c hc with h | h
          · rcases List.mem_append.mp h with h2 | h2
            · exact Or.inl h2
            · exact Or.inr (List.mem_cons.mpr (Or.inl (by simpa using h2)))
          · exact Or.inr (List.mem_cons_of_mem hd h)
      · rcases ih (acc ++ [hd]) c hc with h | h
        · rcases List.mem_append.mp h with h2 | h2
          · exact Or.inl h2
          · exact Or.inr (List.mem_cons.mpr (Or.inl (by simpa using h2)))
        · exact Or.inr (List.mem_cons_of_mem hd h)

theorem lexicallyNormal_goodComps (p : Path) (h : goodComps p) :
    goodComps (lexicallyNormal p) := by
  intro c hc
  rcases lexNormAux_comps p [] c hc with h2 | h2
  · exact absurd h2 (List.not_mem_nil c)
  · exact h c h2

theorem childNames_goodComp (fs : FileSystem) (hfs : WFgood fs) (d : Path) (e : Comp)
    (he : e ∈ childNames fs d) : goodComp e := by
  simp only [childNames] at he
  obtain ⟨q, hq, hmap⟩ := List.mem_filterMap.mp he
  split at hmap
  · exact absurd hmap (by simp)
  · split at hmap
    · rename_i hqne hlow
      have heq : e = q.getLastD [] := (Option.some.inj hmap).symm
      subst heq
      exact hfs q hq _ (getLastD_mem q [] hqne)
    · exact absurd hmap (by simp)

theorem gccRev_goodComps (fs : FileSystem) (hfs : WFgood fs) :
    ∀ rp q, gccRev fs rp = .ok q → goodComps rp.reverse → goodComps q := by
  intro rp
  induction rp with
  | nil =>
    intro q h hg
    simp only [gccRev] at h
    split at h
    · exact absurd h (by simp)
    · exact (Except.ok.inj h) ▸ (by simpa using hg)
  | cons hd tl ih =>
    intro q h hg
    cases tl with
    | nil =>
      simp only [gccRev] at h
      split at h
      · exact absurd h (by simp)
      · exact (Except.ok.inj h) ▸ (by simpa using hg)
    | cons hd2 tl2 =>
      simp only [gccRev] at h
      split at h
      · exact absurd h (by simp)
      · split at h
        · exact absurd h (by simp)
        · split at h
          · exact absurd h (by simp)
          · rename_i e hfind
            split at h
            · rename_i q2 hrec
              have hq : q = q2 ++ [e] := (Except.ok.inj h).symm
              subst hq
              have hgtail : goodComps (hd2 :: tl2).reverse := by
                intro c hc
                exact hg c (by
                  rw [List.reverse_cons]
                  exact List.mem_append_left _ hc)
              have hq2 := ih q2 hrec hgtail
              intro c hc
              rcases List.mem_append.mp hc with h2 | h2
              · exact hq2 c h2
              · have : c = e := by simpa using h2
                subst this
                exact childNames_goodComp fs hfs _ c (List.mem_of_find?_eq_some hfind)
            · exact absurd h (by simp)

theorem gccRev_entry_exists (fs : FileSystem) :
    ∀ rp q, gccRev fs rp = .ok q → fsExists fs rp.reverse = true := by
  intro rp q h
  match rp with
  | [] =>
    simp only [gccRev] at h
    split at h
    · exact absurd h (by simp)
    · rename_i hex
      simpa using hex
  | [c] =>
    simp only [gccRev] at h
    split at h
    · exact absurd h (by simp)
    · rename_i hex
      simpa using hex
  | hd :: hd2 :: tl2 =>
    simp only [gccRev] at h
    split at h
    · exact absurd h (by simp)
    · rename_i hex
      simpa using hex

theorem gccRev_result_exists (fs : FileSystem) (rp q : Path)
    (h : gccRev fs rp = .ok q) : fsExists fs q = true := by
  rw [fsExists_congr fs q rp.reverse (gccRev_lower fs rp q h)]
  exact gccRev_entry_exists fs rp q h

/-- The two per-entry invariants that hold of every emitted command: its
`file` exists on disk, and its `file` occurs inside its `command`. -/
def goodEntry (fs : FileSystem) (c : CompileCommand) : Prop :=
  fsExists fs (parsePath c.file) = true ∧ c.file <:+: c.command

theorem processTlogLine_entries (fs : FileSystem) (bd : Path)
    (acc acc2 : List CompileCommand) (line : Str)
    (h : processTlogLine fs bd acc line = .ok acc2) :
    acc2 = acc ∨ ∃ i q, getCorrectCasingForPath fs (parsePath (line.drop i)) = .ok q ∧
      acc2 = acc ++ [{ directory := pathToString bd,
                       command := clExe ++ line.take i ++ pathToString q,
                       file := pathToString q }] := by
  simp only [processTlogLine] at h
  split at h
  · exact Or.inl (Except.ok.inj h).symm
  · split at h
    · exact absurd h (by simp)
    · split at h
      · exact Or.inl (Except.ok.inj h).symm
      · split at h
        · exact Or.inl (Except.ok.inj h).symm
        · split at h
          · exact Or.inl (Except.ok.inj h).symm
          · rename_i a1 i hscan a2 q hgcc hdup
            exact Or.inr ⟨i, q, hgcc, (Except.ok.inj h).symm⟩

theorem goodEntry_corrected (fs : FileSystem) (hfs : WFgood fs) (p q : Path)
    (hp : goodComps p) (h : getCorrectCasingForPath fs p = .ok q) :
    fsExists fs (parsePath (pathToString q)) = true := by
  have hrev : gccRev fs p.reverse = .ok q := h
  have hgood : goodComps q := by
    refine gccRev_goodComps fs hfs p.reverse q hrev ?_
    rw [List.reverse_reverse]
    exact hp
  rw [parse_toString_roundtrip q hgood]
  exact gccRev_result_exists fs p.reverse q hrev

theorem goodEntry_processTlogLine (fs : FileSystem) (hfs : WFgood fs) (bd : Path)
    (acc acc2 : List CompileCommand) (line : Str)
    (h : processTlogLine fs bd acc line = .ok acc2)
    (hacc : ∀ c ∈ acc, goodEntry fs c) : ∀ c ∈ acc2, goodEntry fs c := by
  rcases processTlogLine_entries fs bd acc acc2 line h with heq | ⟨i, q, hgcc, heq⟩
  · exact heq ▸ hacc
  · subst heq
    intro c hc
    rcases List.mem_append.mp hc with h2 | h2
    · exact hacc c h2
    · have hceq : c = { directory := pathToString bd,
                        command := clExe ++ line.take i ++ pathToString q,
                        file := pathToString q } := by simpa using h2
      subst hceq
      constructor
      · exact goodEntry_corrected fs hfs _ q (parsePath_goodComps _) hgcc
      · exact ⟨clExe ++ line.take i, [], by simp⟩

theorem tryCandidate_entries (fs : FileSystem) (bd : Path)
    (allCmds acc acc2 : List CompileCommand) (ip : Path) (inc sourceFile command : Str)
    (h : tryCandidate fs bd allCmds acc ip inc sourceFile command = .ok acc2) :
    acc2 = acc ∨ ∃ cc p,
      getCorrectCasingForPath fs (lexicallyNormal (ip ++ parsePath inc)) = .ok cc ∧
      acc2 = acc ++ [{ directory := pathToString bd,
                       command := command.take p ++ pathToString cc ++
                         command.drop (p + sourceFile.length),
                       file := pathToString cc }] := by
  simp only [tryCandidate] at h
  split at h
  · exact Or.inl (Except.ok.inj h).symm
  · split at h
    · exact absurd h (by simp)
    · split at h
      · exact Or.inl (Except.ok.inj h).symm
      · split at h
        · exact absurd h (by simp)
        · rename_i a1 cc hgcc hdup a2 pos hfind
          exact Or.inr ⟨cc, pos, hgcc, (Except.ok.inj h).symm⟩

theorem goodEntry_tryCandidate (fs : FileSystem) (hfs : WFgood fs) (bd : Path)
    (allCmds acc acc2 : List CompileCommand) (ip : Path) (inc sourceFile command : Str)
    (hip : goodComps ip)
    (h : tryCandidate fs bd allCmds acc ip inc sourceFile command = .ok acc2)
    (hacc : ∀ c ∈ acc, goodEntry fs c) : ∀ c ∈ acc2, goodEntry fs c := by
  rcases tryCandidate_entries fs bd allCmds acc acc2 ip inc sourceFile command h with
    heq | ⟨cc, pos, hgcc, heq⟩
  · exact heq ▸ hacc
  · subst heq
    intro c hc
    rcases List.mem_append.mp hc with h2 | h2
    · exact hacc c h2
    · have hceq : c = { directory := pathToString bd,
                        command := command.take pos ++ pathToString cc ++
                          command.drop (pos + sourceFile.length),
                        file := pathToString cc } := by simpa using h2
      subst hceq
      constructor
      · refine goodEntry_corrected fs hfs _ cc ?_ hgcc
        refine lexicallyNormal_goodComps _ ?_
        intro x hx
        rcases List.mem_append.mp hx with hx2 | hx2
        · exact hip x hx2
        · exact parsePath_goodComps inc x hx2
      · exact ⟨command.take pos, command.drop (pos + sourceFile.length), by simp⟩

theorem goodEntry_tryIncludePaths (fs : FileSystem) (hfs : WFgood fs) (bd : Path)
    (allCmds : List CompileCommand) (inc sourceFile command : Str) :
    ∀ ips acc acc2,
      tryIncludePaths fs bd allCmds inc sourceFile command acc ips = .ok acc2 →
      (∀ c ∈ acc, goodEntry fs c) → ∀ c ∈ acc2, goodEntry fs c := by
  intro ips
  induction ips with
  | nil =>
    intro acc acc2 h hacc
    simp only [tryIncludePaths] at h
    exact (Except.ok.inj h) ▸ hacc
  | cons ip rest ih =>
    intro acc acc2 h hacc
    simp only [tryIncludePaths] at h
    split at h
    · exact absurd h (by simp)
    · rename_i accMid hmid
      exact ih accMid acc2 h (goodEntry_tryCandidate fs hfs bd allCmds acc accMid
        (parsePath ip) inc sourceFile command (parsePath_goodComps ip) hmid hacc)

theorem goodEntry_processIncludedFiles (fs : FileSystem) (hfs : WFgood fs) (bd : Path)
    (allCmds : List CompileCommand) (sourceFile command : Str) (ips : List Str) :
    ∀ incs acc acc2,
      processIncludedFiles fs bd allCmds sourceFile command ips acc incs = .ok acc2 →
      (∀ c ∈ acc, goodEntry fs c) → ∀ c ∈ acc2, goodEntry fs c := by
  intro incs
  induction incs with
  | nil =>
    intro acc acc2 h hacc
    simp only [processIncludedFiles] at h
    exact (Except.ok.inj h) ▸ hacc
  | cons hdinc rest ih =>
    intro acc acc2 h hacc
    obtain ⟨fileName, usesQuotes⟩ := hdinc
    simp only [processIncludedFiles] at h
    split at h
    · exact absurd h (by simp)
    · rename_i acc1 hfirst
      have hacc1 : ∀ c ∈ acc1, goodEntry fs c := by
        cases usesQuotes with
        | false =>
          simp at hfirst
          exact hfirst ▸ hacc
        | true =>
          simp only [if_pos] at hfirst
          refine goodEntry_tryCandidate fs hfs bd allCmds acc acc1
            ((parsePath sourceFile).dropLast) fileName sourceFile command ?_ hfirst hacc
          intro x hx
          exact parsePath_goodComps sourceFile x (List.dropLast_subset _ hx)
      split at h
      · exact absurd h (by simp)
      · rename_i acc3 htip
        exact ih acc3 acc2 h (goodEntry_tryIncludePaths fs hfs bd allCmds fileName
          sourceFile command ips acc1 acc3 htip hacc1)

theorem goodEntry_headersGo (fs : FileSystem) (hfs : WFgood fs) (bd : Path)
    (allCmds : List CompileCommand) (fuel : Nat) :
    ∀ toCheck acc acc2, headersGo fs bd allCmds fuel acc toCheck = some (.ok acc2) →
      (∀ c ∈ acc, goodEntry fs c) → ∀ c ∈ acc2, goodEntry fs c := by
  intro toCheck
  induction toCheck with
  | nil =>
    intro acc acc2 h hacc
    simp only [headersGo] at h
    exact (by simpa using h : acc = acc2) ▸ hacc
  | cons c rest ih =>
    intro acc acc2 h hacc
    simp only [headersGo] at h
    split at h
    · exact absurd h (by simp)
    · exact absurd h (by simp)
    · rename_i accMid hpc
      refine ih accMid acc2 h ?_
      simp only [processCheckCommand] at hpc
      split at hpc
      · exact absurd hpc (by simp)
      · rename_i lines hlines
        split at hpc
        · exact absurd hpc (by simp)
        · exact absurd hpc (by simp)
        · rename_i ips hrun
          have hpif : processIncludedFiles fs bd allCmds c.file c.command ips acc
              (List.filterMap (parseIncludeLine (['m'].isSuffixOf c.file)) lines) =
              .ok accMid := by simpa using hpc
          exact goodEntry_processIncludedFiles fs hfs bd allCmds c.file c.command ips
            (List.filterMap (parseIncludeLine (['m'].isSuffixOf c.file)) lines) acc
            accMid hpif hacc

theorem goodEntry_headerLoop (fs : FileSystem) (hfs : WFgood fs) (bd : Path) :
    ∀ fuel allCmds toCheck out,
      headerLoop fs bd allCmds toCheck fuel = some (.ok out) →
      (∀ c ∈ allCmds, goodEntry fs c) → ∀ c ∈ out, goodEntry fs c := by
  intro fuel
  induction fuel with
  | zero => intro allCmds toCheck out h _; exact absurd h (by simp [headerLoop])
  | succ n ih =>
    intro allCmds toCheck out h hall
    simp only [headerLoop] at h
    split at h
    · exact absurd h (by simp)
    · exact absurd h (by simp)
    · rename_i batch hbatch
      split at h
      · exact (by simpa using h : allCmds = out) ▸ hall
      · have hbg : ∀ c ∈ batch, goodEntry fs c :=
          goodEntry_headersGo fs hfs bd allCmds (n + 1) toCheck [] batch hbatch
            (by simp)
        refine ih (allCmds ++ batch) batch out h ?_
        intro c hc
        rcases List.mem_append.mp hc with h2 | h2
        · exact hall c h2
        · exact hbg c h2

theorem goodEntry_foldTlogLines (fs : FileSystem) (hfs : WFgood fs) (bd : Path) :
    ∀ lines acc acc2, foldTlogLines fs bd acc lines = .ok acc2 →
      (∀ c ∈ acc, goodEntry fs c) → ∀ c ∈ acc2, goodEntry fs c := by
  intro lines
  induction lines with
  | nil =>
    intro acc acc2 h hacc
    simp only [foldTlogLines] at h
    exact (Except.ok.inj h) ▸ hacc
  | cons line rest ih =>
    intro acc acc2 h hacc
    simp only [foldTlogLines] at h
    split at h
    · exact absurd h (by simp)
    · rename_i accMid hline
      exact ih accMid acc2 h (goodEntry_processTlogLine fs hfs bd acc accMid line
        hline hacc)

theorem goodEntry_sourcesGo (fs : FileSystem) (hfs : WFgood fs) (bd : Path) :
    ∀ tlogFiles acc acc2, sourcesGo fs bd acc tlogFiles = .ok acc2 →
      (∀ c ∈ acc, goodEntry fs c) → ∀ c ∈ acc2, goodEntry fs c := by
  intro tlogFiles
  induction tlogFiles with
  | nil =>
    intro acc acc2 h hacc
    simp only [sourcesGo] at h
    exact (Except.ok.inj h) ▸ hacc
  | cons f rest ih =>
    intro acc acc2 h hacc
    simp only [sourcesGo] at h
    split at h
    · exact absurd h (by simp)
    · split at h
      · exact absurd h (by simp)
      · rename_i accMid hfold
        exact ih accMid acc2 h (goodEntry_foldTlogLines fs hfs bd _ acc accMid
          hfold hacc)

theorem clExe_prefix_foldTlogLines (fs : FileSystem) (bd : Path) :
    ∀ lines acc acc2, foldTlogLines fs bd acc lines = .ok acc2 →
      (∀ c ∈ acc, clExe <+: c.command) → ∀ c ∈ acc2, clExe <+: c.command := by
  intro lines
  induction lines with
  | nil =>
    intro acc acc2 h hacc
    simp only [foldTlogLines] at h
    exact (Except.ok.inj h) ▸ hacc
  | cons line rest ih =>
    intro acc acc2 h hacc
    simp only [foldTlogLines] at h
    split at h
    · exact absurd h (by simp)
    · rename_i accMid hline
      refine ih accMid acc2 h ?_
      rcases processTlogLine_entries fs bd acc accMid line hline with
        heq | ⟨i, q, hgcc, heq⟩
      · exact heq ▸ hacc
      · subst heq
        intro c hc
        rcases List.mem_append.mp hc with h2 | h2
        · exact hacc c h2
        · have hceq : c = { directory := pathToString bd,
                            command := clExe ++ line.take i ++ pathToString q,
                            file := pathToString q } := by simpa using h2
          subst hceq
          exact ⟨line.take i ++ pathToString q, by simp⟩

theorem clExe_prefix_sourcesGo (fs : FileSystem) (bd : Path) :
    ∀ tlogFiles acc acc2, sourcesGo fs bd acc tlogFiles = .ok acc2 →
      (∀ c ∈ acc, clExe <+: c.command) → ∀ c ∈ acc2, clExe <+: c.command := by
  intro tlogFiles
  induction tlogFiles with
  | nil =>
    intro acc acc2 h hacc
    simp only [sourcesGo] at h
    exact (Except.ok.inj h) ▸ hacc
  | cons f rest ih =>
    intro acc acc2 h hacc
    simp only [sourcesGo] at h
    split at h
    · exact absurd h (by simp)
    · split at h
      · exact absurd h (by simp)
      · rename_i accMid hfold
        exact ih accMid acc2 h (clExe_prefix_foldTlogLines fs bd _ acc accMid
          hfold hacc)

/-- C5, counterexample: on `cexFS`, the emitted entry for the header `f`
has command `cl.fxe /c /I "." e` — the replacement of the parent file `e`
hit the `e` inside `cl.exe` — so not every emitted command begins with
`cl.exe `.  (Its `file` still exists and is still a substring of the
command.) -/
theorem createCompileCommands_clexe_counterexample :
    createCompileCommands cexFS cexBuildDir cexTlogs false 10 = some (.ok cexOut) ∧
    ({ directory := "build".toList, command := "cl.fxe /c /I \".\" e".toList,
       file := "f".toList } : CompileCommand) ∈ cexOut ∧
    ¬ clExe <+: ("cl.fxe /c /I \".\" e".toList : Str) :=
  ⟨by rfl, by decide, by decide⟩

/-- C5, amended: every `CompileCommand` emitted by a successful run of
`createCompileCommands` (source and header entries alike) has a `file` that
exists on disk at generation time and occurs as a substring of its
`command`; the commands built by the source pass moreover begin with the
literal `cl.exe `.  (Header commands are the parent command with the first
occurrence of the parent's `file` replaced by the header path; as the
counterexample shows, that replacement can destroy the `cl.exe ` prefix
when the occurrence starts inside it, so the prefix guarantee is restricted
to source entries.) -/
theorem createCompileCommands_entry_invariants (fs : FileSystem) (bd : Path)
    (tlogFiles : List Path) (skipHeaders : Bool) (fuel : Nat)
    (cmds : List CompileCommand) (hfs : WFgood fs)
    (h : createCompileCommands fs bd tlogFiles skipHeaders fuel = some (.ok cmds)) :
    (∀ c ∈ cmds, fsExists fs (parsePath c.file) = true ∧ c.file <:+: c.command) ∧
    (∀ src, buildSourceCommands fs bd tlogFiles = .ok src →
      ∀ c ∈ src, clExe <+: c.command) := by
  constructor
  · simp only [createCompileCommands] at h
    split at h
    · exact absurd h (by simp)
    · rename_i src hsrc
      have hsg : ∀ c ∈ src, goodEntry fs c :=
        goodEntry_sourcesGo fs hfs bd tlogFiles [] src hsrc (by simp)
      split at h
      · exact (by simpa using h : src = cmds) ▸ hsg
      · exact goodEntry_headerLoop fs hfs bd fuel src src cmds h hsg
  · intro src hsrc
    exact clExe_prefix_sourcesGo fs bd tlogFiles [] src hsrc (by simp)

/-- C5, witness: the amended invariants at the concrete `cexFS` run. -/
theorem createCompileCommands_entry_invariants_witness :
    (WFgood cexFS ∧
      createCompileCommands cexFS cexBuildDir cexTlogs false 10 = some (.ok cexOut)) ∧
    (∀ c ∈ cexOut, fsExists cexFS (parsePath c.file) = true ∧ c.file <:+: c.command) :=
  ⟨⟨by unfold WFgood goodComps goodComp; decide, by rfl⟩,
   (createCompileCommands_entry_invariants cexFS cexBuildDir cexTlogs false 10 cexOut
     (by unfold WFgood goodComps goodComp; decide) (by rfl)).1⟩

/-! ## C8: `findTlogFiles` returns exactly the matching files -/

/-- A sane on-disk tree: no empty paths, the parent of every entry is a
directory (or the root), directories exist, and no two distinct entries
differ only in ASCII case (true of NTFS). -/
def wfFS (fs : FileSystem) : Prop :=
  (∀ q ∈ fs.files, q ≠ []) ∧
  (∀ q ∈ fs.files, q.dropLast = [] ∨ q.dropLast ∈ fs.dirs) ∧
  (∀ d ∈ fs.dirs, d ∈ fs.files) ∧
  (∀ a ∈ fs.files, ∀ b ∈ fs.files, lowerPath a = lowerPath b → a = b)

theorem fsIsDir_of_mem_dirs (fs : FileSystem) (p : Path) (h : p ∈ fs.dirs) :
    fsIsDir fs p = true :=
  List.any_eq_true.mpr ⟨p, h, by simp⟩

theorem mem_dirs_length_le (fs : FileSystem) (q : Path) (h : q ∈ fs.dirs) :
    q.length ≤ maxPathLen fs :=
  le_foldr_max _ _ (List.mem_map_of_mem List.length (List.mem_append_right _ h))

theorem mem_dirs_of_fsIsDir (fs : FileSystem) (hwf : wfFS fs) (q : Path)
    (hq : q ∈ fs.files) (h : fsIsDir fs q = true) : q ∈ fs.dirs := by
  rcases List.any_eq_true.mp h with ⟨r, hr, hlow⟩
  have : r = q := hwf.2.2.2 r (hwf.2.2.1 r hr) q hq (by simpa using hlow)
  exact this ▸ hr

theorem dropLast_append_getLastD : ∀ (q : List α), q ≠ [] → ∀ d,
    q.dropLast ++ [q.getLastD d] = q := by
  intro q
  induction q with
  | nil => intro h; exact absurd rfl h
  | cons a as ih =>
    intro _ d
    cases has : as with
    | nil => simp [List.getLastD]
    | cons b bs =>
      subst has
      rw [List.getLastD_cons, List.dropLast_cons₂, List.cons_append, ih (by simp) a]

theorem childNames_mem_iff (fs : FileSystem) (hwf : wfFS fs) (d : Path)
    (hd : d ∈ fs.dirs) (name : Comp) :
    name ∈ childNames fs d ↔ d ++ [name] ∈ fs.files := by
  constructor
  · intro h
    simp only [childNames] at h
    obtain ⟨q, hq, hmap⟩ := List.mem_filterMap.mp h
    split at hmap
    · exact absurd hmap (by simp)
    · split at hmap
      · rename_i hqne hlow
        have hname : name = q.getLastD [] := (Option.some.inj hmap).symm
        have hdf : d ∈ fs.files := hwf.2.2.1 d hd
        have hdne : d ≠ [] := hwf.1 d hdf
        have hqdne : q.dropLast ≠ [] := by
          intro hcontra
          have hle : lowerPath q.dropLast = lowerPath d := by simpa using hlow
          rw [hcontra] at hle
          have : d = [] := by
            have := congrArg List.length hle
            simp [lowerPath] at this
            exact List.eq_nil_of_length_eq_zero this.symm
          exact hdne this
        have hqd : q.dropLast ∈ fs.dirs := by
          rcases hwf.2.1 q hq with h2 | h2
          · exact absurd h2 hqdne
          · exact h2
        have heqd : q.dropLast = d :=
          hwf.2.2.2 q.dropLast (hwf.2.2.1 _ hqd) d hdf (by simpa using hlow)
        have : q = d ++ [name] := by
          rw [hname, ← heqd]
          exact (dropLast_append_getLastD q (fun hc => hqne hc) []).symm
        exact this ▸ hq
      · exact absurd hmap (by simp)
  · intro h
    simp only [childNames]
    refine List.mem_filterMap.mpr ⟨d ++ [name], h, ?_⟩
    rw [if_neg (by simp), if_pos (by rw [List.dropLast_concat]; simp), List.getLastD_concat]

theorem proper_prefix_mem_dirs (fs : FileSystem) (hwf : wfFS fs) :
    ∀ n p a, p.length ≤ n → p ∈ fs.files → a <+: p → a ≠ p → a ≠ [] →
      a ∈ fs.dirs := by
  intro n
  induction n with
  | zero =>
    intro p a hlen hp hpre hne hane
    obtain ⟨t, ht⟩ := hpre
    have hp0 : p = [] := List.eq_nil_of_length_eq_zero (Nat.le_zero.mp hlen)
    subst hp0
    exact absurd (List.append_eq_nil.mp ht).1 hane
  | succ n ih =>
    intro p a hlen hp hpre hne hane
    obtain ⟨t, ht⟩ := hpre
    have htne : t ≠ [] := by
      intro hcontra
      rw [hcontra, List.append_nil] at ht
      exact hne ht
    have hdrop : p.dropLast = a ++ t.dropLast := by
      rw [← ht]
      exact List.dropLast_append_of_ne_nil a htne
    have hdlne : p.dropLast ≠ [] := by
      rw [hdrop]
      intro hcontra
      exact hane (List.append_eq_nil.mp hcontra).1
    have hdld : p.dropLast ∈ fs.dirs := by
      rcases hwf.2.1 p hp with h2 | h2
      · exact absurd h2 hdlne
      · exact h2
    by_cases heq : a = p.dropLast
    · exact heq ▸ hdld
    · refine ih p.dropLast a ?_ (hwf.2.2.1 _ hdld) ⟨t.dropLast, hdrop.symm⟩ heq hane
      have hplen : p ≠ [] := by
        intro hcontra
        subst hcontra
        exact hane (List.prefix_nil.mp ⟨t, ht⟩)
      have := List.length_dropLast p
      have hppos : 0 < p.length := List.length_pos.mpr hplen
      omega

theorem walkEntries_mem_iff (fs : FileSystem) (config : Comp) (d : Path) :
    ∀ (pending : List Comp) (p : Path),
      p ∈ walkEntries fs config d pending ↔
        ∃ name, name ∈ pending ∧
          ((fsIsDir fs (d ++ [name]) = true ∧
            p ∈ walkEntries fs config (d ++ [name]) (childNames fs (d ++ [name]))) ∨
           (fsIsDir fs (d ++ [name]) = false ∧ p = d ++ [name] ∧
            d.dropLast.getLastD [] = config ∧ name = tlogName)) := by
  intro pending
  induction pending with
  | nil => intro p; simp [walkEntries]
  | cons name rest ih =>
    intro p
    by_cases hdir : fsIsDir fs (d ++ [name]) = true
    · have heq : walkEntries fs config d (name :: rest) =
          walkEntries fs config (d ++ [name]) (childNames fs (d ++ [name])) ++
          walkEntries fs config d rest := by
        simp only [walkEntries]
        rw [dif_pos hdir]
      rw [heq]
      simp only [List.mem_append, List.mem_cons, ih p]
      constructor
      · rintro (hin | ⟨n2, hn2, hbr⟩)
        · exact ⟨name, Or.inl rfl, Or.inl ⟨hdir, hin⟩⟩
        · exact ⟨n2, Or.inr hn2, hbr⟩
      · rintro ⟨n2, hn2, hbr⟩
        rcases hn2 with hn | hn
        · subst hn
          rcases hbr with ⟨_, hin⟩ | ⟨hfalse, _⟩
          · exact Or.inl hin
          · simp [hfalse] at hdir
        · exact Or.inr ⟨n2, hn, hbr⟩
    · have hdirf : fsIsDir fs (d ++ [name]) = false := by
        cases hfd : fsIsDir fs (d ++ [name]) with
        | false => rfl
        | true => exact absurd hfd hdir
      by_cases hcond : (d.dropLast.getLastD [] = config ∧ name = tlogName)
      · have heq : walkEntries fs config d (name :: rest) =
            (d ++ [name]) :: walkEntries fs config d rest := by
          simp only [walkEntries]
          rw [dif_neg (by simp [hdirf]), if_pos hcond]
        rw [heq]
        simp only [List.mem_cons, ih p]
        constructor
        · rintro (hpe | ⟨n2, hn2, hbr⟩)
          · exact ⟨name, Or.inl rfl, Or.inr ⟨hdirf, hpe, hcond.1, hcond.2⟩⟩
          · exact ⟨n2, Or.inr hn2, hbr⟩
        · rintro ⟨n2, hn2, hbr⟩
          rcases hn2 with hn | hn
          · subst hn
            rcases hbr with ⟨htrue, _⟩ | ⟨_, hpe, _, _⟩
            · simp [hdirf] at htrue
            · exact Or.inl hpe
          · exact Or.inr ⟨n2, hn, hbr⟩
      · have heq : walkEntries fs config d (name :: rest) =
            walkEntries fs config d rest := by
          simp only [walkEntries]
          rw [dif_neg (by simp [hdirf]), if_neg hcond]
        rw [heq, ih p]
        constructor
        · rintro ⟨n2, hn2, hbr⟩
          exact ⟨n2, List.mem_cons_of_mem _ hn2, hbr⟩
        · rintro ⟨n2, hn2, hbr⟩
          rcases List.mem_cons.mp hn2 with hn | hn
          · subst hn
            rcases hbr with ⟨htrue, _⟩ | ⟨_, _, hc1, hc2⟩
            · simp [hdirf] at htrue
            · exact absurd ⟨hc1, hc2⟩ hcond
          · exact ⟨n2, hn, hbr⟩

theorem walk_spec (fs : FileSystem) (config : Comp) (hwf : wfFS fs) :
    ∀ k d, maxPathLen fs + 1 - d.length ≤ k → d ∈ fs.dirs →
      ∀ p, p ∈ walkEntries fs config d (childNames fs d) ↔
        (p ∈ fs.files ∧ p ∉ fs.dirs ∧ d <+: p ∧ p ≠ d ∧
         p.getLastD [] = tlogName ∧ p.dropLast.dropLast.getLastD [] = config) := by
  intro k
  induction k with
  | zero =>
    intro d hk hd p
    have := mem_dirs_length_le fs d hd
    omega
  | succ n ih =>
    intro d hk hd p
    rw [walkEntries_mem_iff fs config d (childNames fs d) p]
    constructor
    · rintro ⟨name, hname, hbr⟩
      have hchild : d ++ [name] ∈ fs.files :=
        (childNames_mem_iff fs hwf d hd name).mp hname
      rcases hbr with ⟨hdir, hin⟩ | ⟨hdirf, hpe, hcfg, htn⟩
      · have hcd : d ++ [name] ∈ fs.dirs := mem_dirs_of_fsIsDir fs hwf _ hchild hdir
        have hlen : d.length + 1 ≤ maxPathLen fs := by
          have := mem_dirs_length_le fs _ hcd
          simpa using this
        have hih := ih (d ++ [name]) (by simp; omega) hcd p
        obtain ⟨hp1, hp2, ⟨t, ht⟩, hp4, hp5, hp6⟩ := hih.mp hin
        refine ⟨hp1, hp2, ⟨[name] ++ t, by rw [← List.append_assoc]; exact ht⟩, ?_, hp5, hp6⟩
        intro hcontra
        have hlp := congrArg List.length ht
        subst hcontra
        simp at hlp
      · subst hpe
        refine ⟨hchild, ?_, ⟨[name], rfl⟩, ?_, ?_, ?_⟩
        · intro hcontra
          rw [fsIsDir_of_mem_dirs fs _ hcontra] at hdirf
          exact Bool.noConfusion hdirf
        · intro hcontra
          have := congrArg List.length hcontra
          simp at this
        · rw [List.getLastD_concat]
          exact htn
        · rw [List.dropLast_concat]
          exact hcfg
    · rintro ⟨hp1, hp2, ⟨t, ht⟩, hp4, hp5, hp6⟩
      have htne : t ≠ [] := by
        intro hcontra
        rw [hcontra, List.append_nil] at ht
        exact hp4 ht.symm
      obtain ⟨name, r2, hr⟩ : ∃ name r2, t = name :: r2 := by
        cases t with
        | nil => exact absurd rfl htne
        | cons a as => exact ⟨a, as, rfl⟩
      subst hr
      have hane : d ++ [name] ≠ [] := by simp
      have hpre : (d ++ [name]) <+: p := by
        refine ⟨r2, ?_⟩
        rw [List.append_assoc]
        simpa using ht
      have hchild : d ++ [name] ∈ fs.files := by
        cases hr2 : r2 with
        | nil =>
          subst hr2
          have heqp : d ++ [name] = p := by simpa using ht
          rw [heqp]
          exact hp1
        | cons b bs =>
          have hne2 : d ++ [name] ≠ p := by
            intro hcontra
            have h1 := congrArg List.length hcontra
            have h2 := congrArg List.length ht
            rw [hr2] at h2
            simp [List.length_append] at h1 h2
            omega
          have := proper_prefix_mem_dirs fs hwf p.length p (d ++ [name])
            (Nat.le_refl _) hp1 hpre hne2 hane
          exact hwf.2.2.1 _ this
      have hnmem : name ∈ childNames fs d :=
        (childNames_mem_iff fs hwf d hd name).mpr hchild
      refine ⟨name, hnmem, ?_⟩
      cases hr2 : r2 with
      | nil =>
        subst hr2
        have heqp : d ++ [name] = p := by simpa using ht
        have hdirf : fsIsDir fs (d ++ [name]) = false := by
          cases hfd : fsIsDir fs (d ++ [name]) with
          | false => rfl
          | true =>
            have : d ++ [name] ∈ fs.dirs := mem_dirs_of_fsIsDir fs hwf _ hchild hfd
            rw [heqp] at this
            exact absurd this hp2
        refine Or.inr ⟨hdirf, heqp.symm, ?_, ?_⟩
        · rw [← heqp, List.dropLast_concat] at hp6
          exact hp6
        · rw [← heqp, List.getLastD_concat] at hp5
          exact hp5
      | cons b bs =>
        have hne2 : d ++ [name] ≠ p := by
          intro hcontra
          have h1 := congrArg List.length hcontra
          have h2 := congrArg List.length ht
          rw [hr2] at h2
          simp [List.length_append] at h1 h2
          omega
        have hcd : d ++ [name] ∈ fs.dirs := by
          have := proper_prefix_mem_dirs fs hwf p.length p (d ++ [name])
            (Nat.le_refl _) hp1 hpre hne2 hane
          exact this
        have hdir : fsIsDir fs (d ++ [name]) = true := fsIsDir_of_mem_dirs fs _ hcd
        have hlen : d.length + 1 ≤ maxPathLen fs := by
          have := mem_dirs_length_le fs _ hcd
          simpa using this
        have hih := ih (d ++ [name]) (by simp; omega) hcd p
        exact Or.inl ⟨hdir, hih.mpr ⟨hp1, hp2, hpre, fun hc => hne2 hc.symm, hp5, hp6⟩⟩

/-- C8: `findTlogFiles` fails with `BuildDirMissing` when `buildDir` is not
a directory; on a well-formed tree it succeeds and returns exactly the
non-directory entries strictly below `buildDir` whose filename is
`CL.command.1.tlog` and whose grandparent directory's filename is `config`,
and nothing else. -/
theorem findTlogFiles_characterization (fs : FileSystem) (config : Comp) (bd : Path)
    (hwf : wfFS fs) (hbd : bd ∈ fs.dirs) :
    (∃ L, findTlogFiles fs bd config = .ok L ∧
      ∀ p, p ∈ L ↔ (p ∈ fs.files ∧ p ∉ fs.dirs ∧ bd <+: p ∧ p ≠ bd ∧
        p.getLastD [] = tlogName ∧ p.dropLast.dropLast.getLastD [] = config)) ∧
    (∀ bd2, fsIsDir fs bd2 = false →
      findTlogFiles fs bd2 config = .error .buildDirMissing) := by
  constructor
  · refine ⟨walkEntries fs config bd (childNames fs bd), ?_, ?_⟩
    · simp only [findTlogFiles]
      rw [if_pos (fsIsDir_of_mem_dirs fs bd hbd)]
    · intro p
      exact walk_spec fs config hwf (maxPathLen fs + 1) bd (by omega) hbd p
  · intro bd2 hdir
    simp only [findTlogFiles]
    rw [if_neg (by simp [hdir])]

/-- A small MSBuild-like tree: two configurations with one
`CL.command.1.tlog` each, plus a stray file. -/
def tlogDemoFS : FileSystem := {
  files := [["bld".toList],
            ["bld".toList, "P.tlog".toList],
            ["bld".toList, "P.tlog".toList, "Debug".toList],
            ["bld".toList, "P.tlog".toList, "Debug".toList, "x64".toList],
            ["bld".toList, "P.tlog".toList, "Debug".toList, "x64".toList,
             "CL.command.1.tlog".toList],
            ["bld".toList, "P.tlog".toList, "Debug".toList, "x64".toList,
             "other.txt".toList],
            ["bld".toList, "P.tlog".toList, "Release".toList],
            ["bld".toList, "P.tlog".toList, "Release".toList, "x64".toList],
            ["bld".toList, "P.tlog".toList, "Release".toList, "x64".toList,
             "CL.command.1.tlog".toList],
            ["bld".toList, "stray".toList]],
  dirs := [["bld".toList], ["bld".toList, "P.tlog".toList],
           ["bld".toList, "P.tlog".toList, "Debug".toList],
           ["bld".toList, "P.tlog".toList, "Debug".toList, "x64".toList],
           ["bld".toList, "P.tlog".toList, "Release".toList],
           ["bld".toList, "P.tlog".toList, "Release".toList, "x64".toList]],
  contents := [] }

/-- C8, witness: the characterization applied to the concrete demo tree. -/
theorem findTlogFiles_characterization_witness :
    (wfFS tlogDemoFS ∧ ["bld".toList] ∈ tlogDemoFS.dirs) ∧
    ((∃ L, findTlogFiles tlogDemoFS ["bld".toList] ("Debug".toList) = .ok L ∧
      ∀ p, p ∈ L ↔ (p ∈ tlogDemoFS.files ∧ p ∉ tlogDemoFS.dirs ∧
        ["bld".toList] <+: p ∧ p ≠ ["bld".toList] ∧
        p.getLastD [] = tlogName ∧
        p.dropLast.dropLast.getLastD [] = "Debug".toList)) ∧
    (∀ bd2, fsIsDir tlogDemoFS bd2 = false →
      findTlogFiles tlogDemoFS bd2 ("Debug".toList) = .error .buildDirMissing)) :=
  ⟨⟨by unfold wfFS; decide, by decide⟩,
   findTlogFiles_characterization tlogDemoFS ("Debug".toList) ["bld".toList]
     (by unfold wfFS; decide) (by decide)⟩

end CompdbVS

